import Mathlib

/-!
Verification of the html-to-markdown conversion core
(crates/html-to-markdown/src/converter/main.rs).

The Rust functions relevant to the checked claims are shallowly embedded
below.  Strings are modelled as lists of characters (`Str`); every model
definition is a direct transcription of the corresponding Rust function,
with the source name kept (in snake case) wherever possible.  External
crates (the `tl` fast parser, `html5ever`) are treated as oracle
parameters where their behaviour matters.
-/

namespace HtmlMd

/-- Strings of the Rust source are modelled as lists of characters. -/
abbrev Str := List Char

/-- The backtick character (written via its code point). -/
def btick : Char := Char.ofNat 96

/-- Characters popped by `trim_trailing_whitespace` and trimmed from line
ends: space and horizontal tab. -/
def is_space_tab (c : Char) : Bool := c = ' ' || c = '\t'

/-- Rust `u8::is_ascii_whitespace`: space, tab, newline, carriage return,
form feed. -/
def is_ascii_ws (c : Char) : Bool :=
  c = ' ' || c = '\t' || c = '\n' || c = '\r' || c = Char.ofNat 12

/-- Drop the longest run of characters satisfying `p` from the end of a
string.  Models the Rust pop-while loops such as `trim_trailing_whitespace`
and `trim_end_matches`. -/
def dropTrailing (p : Char → Bool) (s : Str) : Str :=
  (s.reverse.dropWhile p).reverse

/-- Model of `trim_trailing_whitespace` (main.rs): pop trailing spaces and
tabs. -/
def trim_trailing_whitespace (s : Str) : Str :=
  dropTrailing is_space_tab s

/-- Rust `str::split('\n')`: split a string at every newline; always returns
at least one (possibly empty) segment. -/
def splitNl : Str → List Str
  | [] => [[]]
  | c :: rest =>
    if c = '\n' then [] :: splitNl rest
    else
      match splitNl rest with
      | [] => [[c]]
      | l :: ls => (c :: l) :: ls

/-- Join segments with single newlines (the `idx > 0` push in
`trim_line_end_whitespace`). -/
def joinNl : List Str → Str
  | [] => []
  | [l] => l
  | l :: ls => l ++ '\n' :: joinNl ls

/-- Does a line end with two spaces (a Markdown soft break)? -/
def ends_with_two_spaces (l : Str) : Bool :=
  match l.reverse with
  | ' ' :: ' ' :: _ => true
  | _ => false

/-- Per-line cleaning step of `trim_line_end_whitespace`: trim trailing
spaces/tabs but re-append the two-space soft break when the line ended with
one. -/
def clean_line (l : Str) : Str :=
  let t := dropTrailing is_space_tab l
  if ends_with_two_spaces l then t ++ [' ', ' '] else t

/-- Model of `trim_line_end_whitespace` (main.rs lines 492-514): on empty
input return immediately; otherwise clean every line and terminate the
result with a newline. -/
def trim_line_end_whitespace (s : Str) : Str :=
  if s = [] then [] else joinNl ((splitNl s).map clean_line) ++ ['\n']

/-- Rust `str::trim_end_matches('\n')`. -/
def trim_end_newlines (s : Str) : Str :=
  dropTrailing (fun c => c = '\n') s

/-- Model of the finalizer at the end of `convert_html_impl` (main.rs lines
1068-1074): run `trim_line_end_whitespace`, strip all trailing newlines, and
return the empty string or the remainder plus one newline. -/
def finalize_output (s : Str) : Str :=
  if trim_end_newlines (trim_line_end_whitespace s) = [] then []
  else trim_end_newlines (trim_line_end_whitespace s) ++ ['\n']

/-- Option `newline_style` of the converter. -/
inductive NewlineStyle
  | spaces
  | backslash
deriving DecidableEq

/-- Option `whitespace_mode` of the converter. -/
inductive WhitespaceMode
  | strict
  | normalized
deriving DecidableEq

/-- Model of the `br` element handler of `walk_node` (main.rs lines
3579-3594).  `in_heading` is the context flag; the result is the new output
buffer. -/
def br_step (in_heading : Bool) (style : NewlineStyle) (output : Str) : Str :=
  if in_heading then
    trim_trailing_whitespace output ++ [' ', ' ']
  else if output = [] ∨ output.getLast? = some '\n' then
    output ++ ['\n']
  else
    match style with
    | .spaces => output ++ [' ', ' ', '\n']
    | .backslash => output ++ ['\\', '\n']

/-- Longest run of consecutive backticks, as computed by the fold in the
inline `code` handler (main.rs lines 3159-3169). -/
def max_backtick_run (s : Str) : Nat :=
  (s.foldl
    (fun mc c =>
      if c = btick then (Nat.max mc.1 (mc.2 + 1), mc.2 + 1) else (mc.1, 0))
    (0, 0)).1

/-- All characters are (ASCII) whitespace; models `str::trim(..).is_empty()`
on the ASCII fragment. -/
def all_whitespace (s : Str) : Bool := s.all Char.isWhitespace

/-- Model of the inline `code` element emission (main.rs lines 3040-3189):
the collected child text `content` (the source binds it as `trimmed`
without trimming) is emitted between backtick delimiters; whitespace-only
content is skipped by the guard. -/
def code_inline_emit (content : Str) : Str :=
  if all_whitespace content then [] else
  let contains_backtick := content.contains btick
  let first := content.head?
  let last := content.getLast?
  let starts_with_space := first = some ' '
  let ends_with_space := last = some ' '
  let starts_with_backtick := first = some btick
  let ends_with_backtick := last = some btick
  let all_spaces := content.all (fun c => c = ' ')
  let needs_delimiter_spaces :=
    all_spaces || starts_with_backtick || ends_with_backtick ||
      (starts_with_space && ends_with_space && contains_backtick)
  let num : Nat :=
    if contains_backtick then (if max_backtick_run content = 1 then 2 else 1)
    else 1
  let pad : Str := if needs_delimiter_spaces then [' '] else []
  List.replicate num btick ++ pad ++ content ++ pad ++
    List.replicate num btick

/-- Condition under which the source adds the delimiter spaces (main.rs
lines 3143-3156). -/
def needs_delimiter_spaces_cond (content : Str) : Bool :=
  content.all (fun c => c = ' ') || content.head? = some btick ||
    content.getLast? = some btick ||
    (content.head? = some ' ' && content.getLast? = some ' ' &&
      content.contains btick)

/-- The delimiter-space padding of claim C3 as stated: a space exactly when
the content begins or ends with a backtick or consists entirely of
spaces. -/
def c3_claim_pad (content : Str) : Str :=
  if content.all (fun c => c = ' ') || content.head? = some btick ||
      content.getLast? = some btick then [' '] else []

/-- Length of the leading backtick run of the emitted span (its
delimiter). -/
def emitted_delim_len (content : Str) : Nat :=
  ((code_inline_emit content).takeWhile (fun c => c = btick)).length

/-- Claim C3 as stated: delimiter strictly longer than the longest internal
backtick run, spaces exactly when the content begins or ends with a backtick
or is all spaces (reading the delimiter off the emitted span). -/
def c3_claim_spec (content : Str) : Prop :=
  (content.contains btick = true →
    emitted_delim_len content > max_backtick_run content ∧
    code_inline_emit content =
      List.replicate (emitted_delim_len content) btick ++ c3_claim_pad content ++
        content ++ c3_claim_pad content ++
        List.replicate (emitted_delim_len content) btick) ∧
  (content.contains btick = false →
    code_inline_emit content = btick :: (content ++ [btick]))

instance (content : Str) : Decidable (c3_claim_spec content) := by
  unfold c3_claim_spec
  infer_instance

/-- Does `s` start with `pre` (Rust `str::starts_with`)? -/
def starts_with (pre s : Str) : Bool := s.take pre.length == pre

/-- Does `s` contain `pat` as a contiguous substring (Rust
`str::contains`)? -/
def contains_sub (pat : Str) : Str → Bool
  | [] => pat.isEmpty
  | c :: rest => starts_with pat (c :: rest) || contains_sub pat rest

/-- The option fields of `ConversionOptions` needed by the checked claims
(autolinks, default_title, extract_metadata, convert_as_inline,
strip/preserve tag sets). -/
structure ConvOptions where
  autolinks : Bool
  default_title : Bool
  extract_metadata : Bool
  convert_as_inline : Bool
  strip_tags : List Str
  preserve_tags : List Str
deriving DecidableEq

/-- Model of the `is_autolink` test of the `a` handler (main.rs lines
1936-1939): `raw_text` is the whitespace-normalized, trimmed visible text
of the anchor. -/
def is_autolink (opts : ConvOptions) (href raw_text : Str) : Bool :=
  opts.autolinks && !opts.default_title && !href.isEmpty &&
    (raw_text == href ||
      (starts_with "mailto:".toList href && raw_text == href.drop 7))

/-- Model of the autolink emission (main.rs lines 1941-1950). -/
def autolink_emit (href raw_text : Str) : Str :=
  '<' ::
    (if starts_with "mailto:".toList href && raw_text == href.drop 7 then
      raw_text
    else href) ++ ['>']

/-- Modelled from the spec: `append_markdown_link`
(converter/inline/link.rs, not part of the provided sources) emits
`[label](href "title")`; per the spec of `default_title`, the href is used
as the title when no explicit title is present. -/
def append_markdown_link_model (label href : Str) (title : Option Str)
    (default_title : Bool) : Str :=
  let t : Option Str :=
    match title with
    | some t => some t
    | none => if default_title then some href else none
  '[' :: label ++ ']' :: '(' :: href ++
    (match t with
     | some t => ' ' :: '"' :: t ++ ['"']
     | none => []) ++ [')']

/-- Model of the anchor emission for a text-only anchor with non-empty
href: the autolink branch (from main.rs) or the ordinary markdown link
(spec-modelled). -/
def anchor_emit (opts : ConvOptions) (href raw_text label : Str)
    (title : Option Str) : Str :=
  if is_autolink opts href raw_text then autolink_emit href raw_text
  else append_markdown_link_model label href title opts.default_title

/-- Is a character one of the scanner terminators of
`has_custom_element_tags`: `>`, `/` or ASCII whitespace? -/
def is_scan_term (c : Char) : Bool := c = '>' || c = '/' || is_ascii_ws c

/-- The position states of the `has_custom_element_tags` index loop
(main.rs lines 575-622): looking for a `<`; directly after a `<` (an
optional `/` may follow); skipping whitespace before the tag name; inside
the tag-name run, remembering whether a hyphen was seen. -/
inductive ScanState
  | text
  | afterLt
  | wsSkip
  | inName (sawHyphen : Bool)
deriving DecidableEq

/-- One-pass transcription of the `has_custom_element_tags` byte loop as a
state machine over the characters: the index arithmetic of the source is
replaced by the position state.  Reaching the end of the input in any state
returns false (the source breaks out of the loop without a check); a
terminator while in the name run reports a seen hyphen or resumes
scanning. -/
def has_custom_scan (st : ScanState) : Str → Bool
  | [] => false
  | c :: rest =>
    match st with
    | .text =>
      if c = '<' then has_custom_scan .afterLt rest
      else has_custom_scan .text rest
    | .afterLt =>
      if c = '/' then has_custom_scan .wsSkip rest
      else if is_ascii_ws c then has_custom_scan .wsSkip rest
      else if is_scan_term c then has_custom_scan .text rest
      else has_custom_scan (.inName (c = '-')) rest
    | .wsSkip =>
      if is_ascii_ws c then has_custom_scan .wsSkip rest
      else if is_scan_term c then has_custom_scan .text rest
      else has_custom_scan (.inName (c = '-')) rest
    | .inName sawHyphen =>
      if is_scan_term c then
        (if sawHyphen then true else has_custom_scan .text rest)
      else has_custom_scan (.inName (sawHyphen || c = '-')) rest

/-- Model of `has_custom_element_tags` (main.rs lines 575-622). -/
def has_custom_element_tags (s : Str) : Bool :=
  has_custom_scan .text s

/-- Claim C5's notion of a tag whose tag name contains a hyphen: a `<`,
an optional `/`, then a name that starts with an ASCII letter, consists of
letters, digits and hyphens, contains a hyphen, and is terminated by `>`,
`/` or whitespace. -/
def spec_hyphen_tag : Str → Bool
  | [] => false
  | c :: rest =>
    (if c = '<' then
      (match (if rest.head? = some '/' then rest.tail else rest) with
       | [] => false
       | x :: xs =>
         x.isAlpha &&
         (let name := (x :: xs).takeWhile
            (fun d => d.isAlpha || d.isDigit || d = '-')
          let rem := (x :: xs).dropWhile
            (fun d => d.isAlpha || d.isDigit || d = '-')
          name.contains '-' &&
          (match rem with
           | [] => false
           | y :: _ => (y = '>' || y = '/' || is_ascii_ws y))))
    else false)
    || spec_hyphen_tag rest

/-- Outcome of the parse-plus-repair loop of `convert_html_impl` (main.rs
lines 840-852), with the fast parse and html5ever repair as oracles and a
fuel bound standing for the number of iterations observed. -/
inductive ParseOutcome
  | success (s : Str)
  | parse_error
  | out_of_fuel
deriving DecidableEq

/-- Model of the `loop` at main.rs lines 840-852: parse; on failure repair
and re-preprocess, then retry; fail with `ParseError` only when the repair
itself fails. -/
def parse_repair_loop (parse_ok : Str → Bool) (repair : Str → Option Str)
    (preprocess : Str → Str) : Nat → Str → ParseOutcome
  | 0, _ => .out_of_fuel
  | n + 1, s =>
    if parse_ok s then .success s
    else
      match repair s with
      | some r => parse_repair_loop parse_ok repair preprocess n (preprocess r)
      | none => .parse_error

/-- Number of html5ever repair attempts made by the loop within the given
fuel. -/
def repair_attempts (parse_ok : Str → Bool) (repair : Str → Option Str)
    (preprocess : Str → Str) : Nat → Str → Nat
  | 0, _ => 0
  | n + 1, s =>
    if parse_ok s then 0
    else
      match repair s with
      | some r => 1 + repair_attempts parse_ok repair preprocess n (preprocess r)
      | none => 1

/-- Model of the custom-element repair phase (main.rs lines 832-838): when
the preprocessed input contains custom-element tags, try the html5ever
repair once (the oracle `repair`); on success re-preprocess, on failure
keep the input.  The second component counts the repair attempts. -/
def custom_element_repair_phase (repair : Str → Option Str)
    (preprocess : Str → Str) (preprocessed : Str) : Str × Nat :=
  if has_custom_element_tags preprocessed then
    match repair preprocessed with
    | some r => (preprocess r, 1)
    | none => (preprocessed, 1)
  else (preprocessed, 0)

/-- Model of the misnesting repair phase (main.rs lines 910-923): when the
misnest check (oracle `misnest`, the `has_inline_block_misnest` run on the
parsed DOM) fires, try the html5ever repair once; on success re-preprocess
and re-parse, failing with `ParseError` (modelled as `none`) when the
re-parse fails; when the repair fails keep the current document.  The
second component counts the repair attempts. -/
def misnest_repair_phase (misnest : Str → Bool) (repair : Str → Option Str)
    (preprocess : Str → Str) (parse_ok : Str → Bool) (preprocessed : Str) :
    Option Str × Nat :=
  if misnest preprocessed then
    match repair preprocessed with
    | some r =>
      (if parse_ok (preprocess r) then some (preprocess r) else none, 1)
    | none => (some preprocessed, 1)
  else (some preprocessed, 0)

/-- Model of `has_more_than_one_char` (main.rs lines 1076-1079). -/
def has_more_than_one_char (s : Str) : Bool :=
  match s with
  | _ :: _ :: _ => true
  | _ => false

/-- The `strip_newlines` replacement (main.rs line 1177): carriage returns
and newlines become spaces. -/
def strip_newlines_replace (s : Str) : Str :=
  s.map (fun c => if c = '\r' || c = '\n' then ' ' else c)

/-- Does the output already end with a blank-line separator? -/
def ends_with_nl_nl (s : Str) : Bool :=
  match s.reverse with
  | '\n' :: '\n' :: _ => true
  | _ => false

/-- Model of the whitespace-only text-node handling of `walk_node`
(main.rs lines 1164-1229, the `text.trim().is_empty()` block).  `text` is
the decoded text of the node; `prev_inline` and `next_inline` abstract the
sibling predicates; the result is the new output buffer. -/
def raw_ws_step (in_code : Bool) (mode : WhitespaceMode)
    (as_inline in_table_cell in_list_item strip_nl prev_inline next_inline : Bool)
    (text output : Str) : Str :=
  let had_newlines := text.contains '\n'
  let has_double_newline :=
    contains_sub "\n\n".toList text || contains_sub "\r\n\r\n".toList text
  let t := if strip_nl then strip_newlines_replace text else text
  if in_code then output ++ t
  else if mode = WhitespaceMode.strict then
    if as_inline || in_table_cell || in_list_item then output ++ t
    else if has_double_newline then
      (if ends_with_nl_nl output then output else output ++ ['\n'])
    else output ++ t
  else if had_newlines then output
  else if prev_inline && next_inline then
    if has_more_than_one_char t then
      (if output.getLast? = some ' ' then output else output ++ [' '])
    else output ++ t
  else output ++ t

/-- The DOM node type of the `tl` crate as used by the converter: an
element tag with name, attributes (ordered, values optional) and children,
a raw text node, or a comment. -/
inductive HNode where
  | tag (name : Str) (attrs : List (Str × Option Str)) (children : List HNode)
  | raw (text : Str)
  | comment

/-- Lower-case an ASCII letter (Rust `eq_ignore_ascii_case` helper). -/
def ascii_lower (c : Char) : Char :=
  if 'A' ≤ c ∧ c ≤ 'Z' then Char.ofNat (c.toNat + 32) else c

/-- Rust `str::eq_ignore_ascii_case`. -/
def eq_ignore_ascii_case (a b : Str) : Bool :=
  a.map ascii_lower == b.map ascii_lower

/-- Rust `tag.attributes().get(key).flatten()`: the value of the first
attribute with the given name, when present. -/
def attr_flat (attrs : List (Str × Option Str)) (key : Str) : Option Str :=
  ((attrs.find? (fun kv => kv.1 == key)).map (fun kv => kv.2)).join

/-- Lexicographic order on strings by character code, the order in which a
`BTreeMap<String, String>` iterates its keys. -/
def str_lt : Str → Str → Bool
  | [], [] => false
  | [], _ :: _ => true
  | _ :: _, [] => false
  | a :: as_, b :: bs =>
    if a < b then true else if b < a then false else str_lt as_ bs

/-- Ordered insert-or-replace, modelling `BTreeMap::insert` on the model's
sorted association list. -/
def meta_insert (k v : Str) : List (Str × Str) → List (Str × Str)
  | [] => [(k, v)]
  | (k2, v2) :: rest =>
    if str_lt k k2 then (k, v) :: (k2, v2) :: rest
    else if k == k2 then (k, v) :: rest
    else (k2, v2) :: meta_insert k v rest

/-- Rust `str::trim` (on the ASCII fragment). -/
def rust_trim (s : Str) : Str :=
  dropTrailing Char.isWhitespace (s.dropWhile Char.isWhitespace)

/-- The raw text directly under a `<title>` element: the source
concatenates the `Raw` children only, without entity decoding (main.rs
lines 737-743). -/
def title_raw_text (children : List HNode) : Str :=
  children.foldr
    (fun c acc =>
      match c with
      | HNode.raw t => t ++ acc
      | _ => acc)
    []

/-- The `meta` block of `extract_head_metadata` (main.rs lines 709-730):
`name`/`content` and then `property`/`content` pairs produce `meta-<name>`
entries, gated by the strip/preserve sets. -/
def head_meta_name_step (cattrs : List (Str × Option Str))
    (m : List (Str × Str)) : List (Str × Str) :=
  match attr_flat cattrs "name".toList, attr_flat cattrs "content".toList with
  | some nm, some ct => meta_insert ("meta-".toList ++ nm) ct m
  | _, _ => m

def head_meta_property_step (cattrs : List (Str × Option Str))
    (m : List (Str × Str)) : List (Str × Str) :=
  match attr_flat cattrs "property".toList,
      attr_flat cattrs "content".toList with
  | some pr, some ct => meta_insert ("meta-".toList ++ pr) ct m
  | _, _ => m

def head_meta_step (opts : ConvOptions) (cname : Str)
    (cattrs : List (Str × Option Str)) (m : List (Str × Str)) :
    List (Str × Str) :=
  if eq_ignore_ascii_case cname "meta".toList
      && !(opts.strip_tags.contains "meta".toList)
      && !(opts.preserve_tags.contains "meta".toList) then
    head_meta_property_step cattrs (head_meta_name_step cattrs m)
  else m

/-- The `title` block of `extract_head_metadata` (main.rs lines 732-748):
the trimmed raw text of the title, when non-empty, gated by the
strip/preserve sets. -/
def head_title_step (opts : ConvOptions) (cname : Str)
    (cchildren : List HNode) (m : List (Str × Str)) : List (Str × Str) :=
  if eq_ignore_ascii_case cname "title".toList
      && !(opts.strip_tags.contains "title".toList)
      && !(opts.preserve_tags.contains "title".toList) then
    if rust_trim (title_raw_text cchildren) = [] then m
    else meta_insert "title".toList (rust_trim (title_raw_text cchildren)) m
  else m

/-- The `link` block of `extract_head_metadata` (main.rs lines 749-761):
a `rel` containing `canonical` stores the `href` as `canonical`. -/
def head_link_step (cname : Str) (cattrs : List (Str × Option Str))
    (m : List (Str × Str)) : List (Str × Str) :=
  if eq_ignore_ascii_case cname "link".toList then
    match attr_flat cattrs "rel".toList with
    | some rel =>
      if contains_sub "canonical".toList rel then
        match attr_flat cattrs "href".toList with
        | some href => meta_insert "canonical".toList href m
        | none => m
      else m
    | none => m
  else m

/-- The `base` block of `extract_head_metadata` (main.rs lines 762-769). -/
def head_base_step (cname : Str) (cattrs : List (Str × Option Str))
    (m : List (Str × Str)) : List (Str × Str) :=
  if eq_ignore_ascii_case cname "base".toList then
    match attr_flat cattrs "href".toList with
    | some href => meta_insert "base".toList href m
    | none => m
  else m

/-- Processing of one direct child of `<head>` by `extract_head_metadata`
(main.rs lines 707-770): the four blocks in source order; non-tag children
contribute nothing. -/
def process_head_child (opts : ConvOptions) (child : HNode)
    (m : List (Str × Str)) : List (Str × Str) :=
  match child with
  | HNode.tag cname cattrs cchildren =>
    head_base_step cname cattrs
      (head_link_step cname cattrs
        (head_title_step opts cname cchildren
          (head_meta_step opts cname cattrs m)))
  | _ => m

mutual

/-- Model of `extract_head_metadata` (main.rs lines 695-786): on a `head`
tag process its direct children; on any other tag search the children and
keep the first non-empty result; non-tags contribute nothing. -/
def extract_head_metadata (opts : ConvOptions) : HNode → List (Str × Str)
  | HNode.tag name _ children =>
    if eq_ignore_ascii_case name "head".toList then
      children.foldl (fun m c => process_head_child opts c m) []
    else extract_head_list opts children

  | _ => []

/-- The first non-empty `extract_head_metadata` result among a list of
nodes (the `break` at main.rs line 779 and the loop at lines 940-946). -/
def extract_head_list (opts : ConvOptions) : List HNode → List (Str × Str)
  | [] => []
  | c :: rest =>
    if extract_head_metadata opts c = [] then extract_head_list opts rest
    else extract_head_metadata opts c

end

/-- Model of `format_metadata_frontmatter` (main.rs lines 644-651): a
`---` fence, one `key: value` line per entry in map order, a closing
fence. -/
def format_metadata_frontmatter (m : List (Str × Str)) : Str :=
  "---\n".toList ++
    m.foldr (fun kv acc => kv.1 ++ ": ".toList ++ kv.2 ++ '\n' :: acc) [] ++
    "---\n".toList

/-- The head metadata used by `convert_html_impl`: the first root child
whose subtree yields a non-empty entry set (main.rs lines 940-946). -/
def head_metadata_of (opts : ConvOptions) (rootChildren : List HNode) :
    List (Str × Str) :=
  extract_head_list opts rootChildren

/-- Model of the output assembly of `convert_html_impl` on the standard
(non-hOCR) path: the frontmatter block is emitted first when
`extract_metadata` is set and `convert_as_inline` is not and the head
yielded entries; the walker output (abstracted as `walkOut`) follows; the
finalizer runs last (main.rs lines 925-1074). -/
def convert_output (opts : ConvOptions) (rootChildren : List HNode)
    (walkOut : Str) : Str :=
  finalize_output
    ((if opts.extract_metadata && !opts.convert_as_inline &&
          !((head_metadata_of opts rootChildren).isEmpty) then
        format_metadata_frontmatter (head_metadata_of opts rootChildren)
      else []) ++ walkOut)

mutual

/-- All nodes of a subtree, the node itself first. -/
def subtree : HNode → List HNode
  | HNode.tag name attrs children =>
    HNode.tag name attrs children :: subtree_list children
  | HNode.raw t => [HNode.raw t]
  | HNode.comment => [HNode.comment]

def subtree_list : List HNode → List HNode
  | [] => []
  | c :: rest => subtree c ++ subtree_list rest

end

mutual

/-- Model of `DomContext::text_content_uncached` without the cache
(main.rs lines 428-447): raw text is entity-decoded (`decode` is the
external, pure `decode_html_entities`), tags concatenate their children,
comments are empty. -/
def text_content (decode : Str → Str) : HNode → Str
  | HNode.tag _ _ children => text_content_list decode children
  | HNode.raw t => decode t
  | HNode.comment => []

def text_content_list (decode : Str → Str) : List HNode → Str
  | [] => []
  | c :: rest => text_content decode c ++ text_content_list decode rest

end

/-- Model of `LruCache::get` followed by promotion: on a hit the entry
moves to the front of the recency list. -/
def lru_get (cache : List (Nat × Str)) (k : Nat) :
    Option Str × List (Nat × Str) :=
  match cache.find? (fun kv => kv.1 == k) with
  | some kv => (some kv.2, (k, kv.2) :: cache.filter (fun e => !(e.1 == k)))
  | none => (none, cache)

/-- Model of `LruCache::put` with capacity `cap`: insert at the front,
drop a duplicate key, evict beyond the capacity. -/
def lru_put (cap : Nat) (cache : List (Nat × Str)) (k : Nat) (v : Str) :
    List (Nat × Str) :=
  ((k, v) :: cache.filter (fun e => !(e.1 == k))).take cap

mutual

/-- Model of `DomContext::text_content` (main.rs lines 413-426): consult
the LRU cache keyed by the node id `idOf n`; on a miss compute the value
(the body of `text_content_uncached`, whose child lookups go through the
cache again) and store it. -/
def text_content_cached (decode : Str → Str) (cap : Nat)
    (idOf : HNode → Nat) : HNode → List (Nat × Str) → Str × List (Nat × Str)
  | HNode.raw t, cache =>
    match lru_get cache (idOf (HNode.raw t)) with
    | (some v, c2) => (v, c2)
    | (none, c2) => (decode t, lru_put cap c2 (idOf (HNode.raw t)) (decode t))
  | HNode.comment, cache =>
    match lru_get cache (idOf HNode.comment) with
    | (some v, c2) => (v, c2)
    | (none, c2) => ([], lru_put cap c2 (idOf HNode.comment) [])
  | HNode.tag name attrs children, cache =>
    match lru_get cache (idOf (HNode.tag name attrs children)) with
    | (some v, c2) => (v, c2)
    | (none, c2) =>
      let p := text_content_list_cached decode cap idOf children c2
      (p.1, lru_put cap p.2 (idOf (HNode.tag name attrs children)) p.1)

def text_content_list_cached (decode : Str → Str) (cap : Nat)
    (idOf : HNode → Nat) :
    List HNode → List (Nat × Str) → Str × List (Nat × Str)
  | [], cache => ([], cache)
  | c :: rest, cache =>
    let p := text_content_cached decode cap idOf c cache
    let q := text_content_list_cached decode cap idOf rest p.2
    (p.1 ++ q.1, q.2)

end

/-- Join lines, terminating every line with a newline. -/
def joinLinesTerm (ls : List Str) : Str :=
  ls.foldr (fun l acc => l ++ '\n' :: acc) []

/-- The lines of the YAML frontmatter block: opening fence, one
`key: value` line per entry, closing fence. -/
def front_lines (m : List (Str × Str)) : List Str :=
  "---".toList :: m.map (fun kv => kv.1 ++ ": ".toList ++ kv.2) ++
    ["---".toList]

/-- The entries are strictly sorted by key, as a `BTreeMap` iterates
them. -/
def sorted_keys (m : List (Str × Str)) : Prop :=
  List.Chain' (fun a b => str_lt a.1 b.1 = true) m

/-- Node ids are consistent on the document: nodes of the tree with the
same id have the same text content (true of the real `DomContext`, whose
ids are unique). -/
def id_consistent (decode : Str → Str) (idOf : HNode → Nat)
    (root : HNode) : Prop :=
  ∀ m ∈ subtree root, ∀ m2 ∈ subtree root,
    idOf m = idOf m2 → text_content decode m = text_content decode m2

/-- A cache state is sound for the document: every stored entry agrees
with the text content of every tree node carrying its key. -/
def cache_sound (decode : Str → Str) (idOf : HNode → Nat) (root : HNode)
    (cache : List (Nat × Str)) : Prop :=
  ∀ kv ∈ cache, ∀ m ∈ subtree root,
    idOf m = kv.1 → text_content decode m = kv.2

end HtmlMd

namespace HtmlMd

/- ------------------------------------------------------------------ -/
/- Helper lemmas -/
/- ------------------------------------------------------------------ -/

theorem head?_dropWhile_not {p : Char → Bool} {l : Str} {a : Char}
    (h : (l.dropWhile p).head? = some a) : p a = false := by
  induction l with
  | nil => simp [List.dropWhile] at h
  | cons x xs ih =>
    by_cases hx : p x
    · rw [List.dropWhile_cons, if_pos hx] at h
      exact ih h
    · rw [List.dropWhile_cons, if_neg hx] at h
      simp only [List.head?_cons, Option.some.injEq] at h
      simp [← h, hx]

theorem dropTrailing_getLast?_not {p : Char → Bool} {s : Str} {a : Char}
    (h : (dropTrailing p s).getLast? = some a) : p a = false := by
  have h' : (s.reverse.dropWhile p).head? = some a := by
    rw [dropTrailing, List.getLast?_reverse] at h
    exact h
  exact head?_dropWhile_not h'

theorem dropTrailing_eq_nil_of_all {p : Char → Bool} {s : Str}
    (h : ∀ c ∈ s, p c = true) : dropTrailing p s = [] := by
  have : s.reverse.dropWhile p = [] := by
    rw [List.dropWhile_eq_nil_iff]
    intro x hx
    exact h x (List.mem_reverse.mp hx)
  simp [dropTrailing, this]

theorem splitNl_all_nil {s : Str} (h : ∀ c ∈ s, c = '\n') :
    ∀ l ∈ splitNl s, l = [] := by
  induction s with
  | nil => intro l hl; simpa [splitNl] using hl
  | cons c rest ih =>
    intro l hl
    have hc : c = '\n' := h c (by simp)
    have hrest : ∀ x ∈ rest, x = '\n' := fun x hx => h x (by simp [hx])
    rw [splitNl, if_pos hc] at hl
    rcases List.mem_cons.mp hl with h1 | h2
    · exact h1
    · exact ih hrest l h2

theorem joinNl_cons_cons (l r : Str) (rs : List Str) :
    joinNl (l :: r :: rs) = l ++ '\n' :: joinNl (r :: rs) := rfl

theorem joinNl_all_nl {ls : List Str} (h : ∀ l ∈ ls, l = []) :
    ∀ c ∈ joinNl ls, c = '\n' := by
  induction ls with
  | nil => intro c hc; simp [joinNl] at hc
  | cons l rest ih =>
    intro c hc
    have hl : l = [] := h l (by simp)
    match rest, hc with
    | [], hc =>
      rw [hl] at hc
      simp [joinNl] at hc
    | r :: rs, hc =>
      rw [joinNl_cons_cons, hl] at hc
      simp only [List.nil_append, List.mem_cons] at hc
      rcases hc with h1 | h2
      · exact h1
      · exact ih (fun x hx => h x (by simp [hx])) c h2

/- ------------------------------------------------------------------ -/
/- C1 -/
/- ------------------------------------------------------------------ -/

/-- C1: the finalizer of `convert_html_impl` returns either the empty
string or a string whose last character is a newline with no newline
directly before it; and a walker output consisting solely of newlines
(in particular the empty output of a walk with no renderable content)
finalizes to the empty string. -/
theorem c1_terminating_newline (s : Str) :
    (finalize_output s = [] ∨
      ∃ t, finalize_output s = t ++ ['\n'] ∧ t ≠ [] ∧
        t.getLast? ≠ some '\n') ∧
    ((∀ c ∈ s, c = '\n') → finalize_output s = []) := by
  constructor
  · by_cases h : trim_end_newlines (trim_line_end_whitespace s) = []
    · left
      simp [finalize_output, h]
    · right
      refine ⟨trim_end_newlines (trim_line_end_whitespace s), ?_, h, ?_⟩
      · simp [finalize_output, h]
      · intro hlast
        have := @dropTrailing_getLast?_not (fun c => c = '\n')
          (trim_line_end_whitespace s) _ hlast
        simp at this
  · intro hall
    by_cases hs : s = []
    · simp [finalize_output, trim_line_end_whitespace, hs, trim_end_newlines,
        dropTrailing]
    · have h1 : ∀ l ∈ splitNl s, l = [] := splitNl_all_nil hall
      have h2 : ∀ l ∈ (splitNl s).map clean_line, l = [] := by
        intro l hl
        rcases List.mem_map.mp hl with ⟨x, hx, rfl⟩
        have : x = [] := h1 x hx
        simp [this, clean_line, ends_with_two_spaces, dropTrailing]
      have h3 : ∀ c ∈ joinNl ((splitNl s).map clean_line), c = '\n' :=
        joinNl_all_nl h2
      have h4 : ∀ c ∈ trim_line_end_whitespace s, c = '\n' := by
        intro c hc
        rw [trim_line_end_whitespace, if_neg hs] at hc
        rcases List.mem_append.mp hc with h | h
        · exact h3 c h
        · simpa using h
      have h5 : trim_end_newlines (trim_line_end_whitespace s) = [] := by
        apply dropTrailing_eq_nil_of_all
        intro c hc
        simp [h4 c hc]
      simp [finalize_output, h5]

/-- C1 witness: a walker output of two bare newlines finalizes to the empty
string. -/
theorem c1_terminating_newline_witness :
    finalize_output ['\n', '\n'] = [] :=
  (c1_terminating_newline ['\n', '\n']).2 (by decide)

/- ------------------------------------------------------------------ -/
/- C2 -/
/- ------------------------------------------------------------------ -/

/-- C2 counterexample: with oracles under which the fast parse keeps
failing while the html5ever repair keeps succeeding, the parse loop of
`convert_html_impl` attempts the repair once per iteration (five times in
five observed iterations) and neither succeeds nor returns `ParseError` —
it loops, contradicting "repair is attempted at most once per failure
mode". -/
theorem c2_counterexample :
    parse_repair_loop (fun _ => false) (fun s => some s) id 5 "x".toList =
        ParseOutcome.out_of_fuel ∧
      repair_attempts (fun _ => false) (fun s => some s) id 5 "x".toList = 5 := by
  decide

theorem parse_repair_loop_sound (parse_ok : Str → Bool)
    (repair : Str → Option Str) (preprocess : Str → Str) (fuel : Nat)
    (s : Str) :
    (∀ t, parse_repair_loop parse_ok repair preprocess fuel s =
        ParseOutcome.success t → parse_ok t = true) ∧
    (parse_repair_loop parse_ok repair preprocess fuel s =
        ParseOutcome.parse_error →
      ∃ t, parse_ok t = false ∧ repair t = none) := by
  induction fuel generalizing s with
  | zero =>
    constructor
    · intro t ht
      simp [parse_repair_loop] at ht
    · intro ht
      simp [parse_repair_loop] at ht
  | succ n ih =>
    constructor
    · intro t ht
      rw [parse_repair_loop] at ht
      by_cases hp : parse_ok s
      · rw [if_pos hp] at ht
        cases ht
        exact hp
      · rw [if_neg hp] at ht
        cases hr : repair s with
        | some r =>
          rw [hr] at ht
          exact (ih (preprocess r)).1 t ht
        | none =>
          rw [hr] at ht
          cases ht
    · intro ht
      rw [parse_repair_loop] at ht
      by_cases hp : parse_ok s
      · rw [if_pos hp] at ht
        cases ht
      · rw [if_neg hp] at ht
        cases hr : repair s with
        | some r =>
          rw [hr] at ht
          exact (ih (preprocess r)).2 ht
        | none =>
          exact ⟨s, Bool.eq_false_iff.mpr hp, hr⟩

/-- C2 (amended): the parse loop returns only successfully parsed strings;
it returns `ParseError` exactly when the fast parse fails on the current
string and the html5ever repair also fails there (otherwise repair is
retried); and the custom-element and misnesting repair phases each attempt
the repair at most once. -/
theorem c2_parse_repair_rules :
    (∀ (parse_ok : Str → Bool) (repair : Str → Option Str)
        (preprocess : Str → Str) (fuel : Nat) (s : Str),
      (∀ t, parse_repair_loop parse_ok repair preprocess fuel s =
          ParseOutcome.success t → parse_ok t = true) ∧
      (parse_repair_loop parse_ok repair preprocess fuel s =
          ParseOutcome.parse_error →
        ∃ t, parse_ok t = false ∧ repair t = none) ∧
      (parse_ok s = false → repair s = none → 0 < fuel →
        parse_repair_loop parse_ok repair preprocess fuel s =
          ParseOutcome.parse_error)) ∧
    (∀ (repair : Str → Option Str) (preprocess : Str → Str) (s : Str),
      (custom_element_repair_phase repair preprocess s).2 ≤ 1) ∧
    (∀ (misnest : Str → Bool) (repair : Str → Option Str)
        (preprocess : Str → Str) (parse_ok : Str → Bool) (s : Str),
      (misnest_repair_phase misnest repair preprocess parse_ok s).2 ≤ 1) := by
  refine ⟨?_, ?_, ?_⟩
  · intro parse_ok repair preprocess fuel s
    refine ⟨(parse_repair_loop_sound parse_ok repair preprocess fuel s).1,
      (parse_repair_loop_sound parse_ok repair preprocess fuel s).2, ?_⟩
    intro h1 h2 h3
    cases fuel with
    | zero => exact absurd h3 (by simp)
    | succ n =>
      rw [parse_repair_loop,
        if_neg (by rw [h1]; exact Bool.false_ne_true), h2]
  · intro repair preprocess s
    rw [custom_element_repair_phase]
    split
    · split <;> simp
    · simp
  · intro misnest repair preprocess parse_ok s
    rw [misnest_repair_phase]
    split
    · split <;> simp
    · simp

/-- C2 witness: the loop rules evaluated concretely: a run that repairs
once and then succeeds satisfies the parse oracle at its result; a run
whose parse and repair both fail returns `ParseError`; and a
custom-element repair on a hyphenated tag makes exactly one attempt. -/
theorem c2_parse_repair_rules_witness :
    (fun s : Str => s == "y".toList) "y".toList = true ∧
    parse_repair_loop (fun _ : Str => false)
        (fun _ : Str => (none : Option Str)) id 3 "x".toList =
      ParseOutcome.parse_error ∧
    (custom_element_repair_phase (fun _ : Str => some "z".toList) id
      "<a-b>".toList).2 ≤ 1 :=
  ⟨(c2_parse_repair_rules.1 (fun s => s == "y".toList)
      (fun _ => some "y".toList) id 2 "x".toList).1 "y".toList (by decide),
   (c2_parse_repair_rules.1 (fun _ => false) (fun _ => none) id 3
      "x".toList).2.2 rfl rfl (by decide),
   c2_parse_repair_rules.2.1 (fun _ => some "z".toList) id "<a-b>".toList⟩

/- ------------------------------------------------------------------ -/
/- C3 -/
/- ------------------------------------------------------------------ -/

/-- C3 counterexample: for content with an internal run of two backticks
the emitted span uses a single-backtick delimiter (not strictly longer than
the run), and for content that begins and ends with a space while
containing a backtick the source adds delimiter spaces the claim does not
mention. -/
theorem c3_counterexample :
    ¬ c3_claim_spec ("a``b".toList) ∧ ¬ c3_claim_spec (" a`b ".toList) := by
  decide

/-- C3 (amended): the inline-code delimiter is two backticks when the
longest internal run is exactly one and a single backtick otherwise
(including runs of two or more); the delimiter spaces are added when the
content is all spaces, begins or ends with a backtick, or begins and ends
with a space while containing a backtick. -/
theorem c3_code_inline_delimiters (content : Str)
    (h1 : all_whitespace content = false) :
    (content.contains btick = true → max_backtick_run content = 1 →
      code_inline_emit content =
        [btick, btick] ++
          (if needs_delimiter_spaces_cond content then [' '] else []) ++
          content ++
          (if needs_delimiter_spaces_cond content then [' '] else []) ++
          [btick, btick]) ∧
    (content.contains btick = true → max_backtick_run content ≠ 1 →
      code_inline_emit content =
        [btick] ++
          (if needs_delimiter_spaces_cond content then [' '] else []) ++
          content ++
          (if needs_delimiter_spaces_cond content then [' '] else []) ++
          [btick]) ∧
    (content.contains btick = false →
      code_inline_emit content =
        [btick] ++
          (if needs_delimiter_spaces_cond content then [' '] else []) ++
          content ++
          (if needs_delimiter_spaces_cond content then [' '] else []) ++
          [btick]) := by
  refine ⟨?_, ?_, ?_⟩
  · intro hc hm
    have hc' : btick ∈ content := by simpa using hc
    simp [code_inline_emit, needs_delimiter_spaces_cond, h1, hc', hm,
      List.replicate]
  · intro hc hm
    have hc' : btick ∈ content := by simpa using hc
    simp [code_inline_emit, needs_delimiter_spaces_cond, h1, hc', hm,
      List.replicate]
  · intro hc
    have hc' : ¬ btick ∈ content := by simpa using hc
    simp [code_inline_emit, needs_delimiter_spaces_cond, h1, hc',
      List.replicate]

/-- C3 witness: the amended delimiter rule evaluated on content with a
two-backtick internal run. -/
theorem c3_code_inline_delimiters_witness :
    code_inline_emit "a``b".toList =
      [btick] ++
        (if needs_delimiter_spaces_cond "a``b".toList then [' '] else []) ++
        "a``b".toList ++
        (if needs_delimiter_spaces_cond "a``b".toList then [' '] else []) ++
        [btick] :=
  (c3_code_inline_delimiters "a``b".toList (by decide)).2.1 (by decide)
    (by decide)

/- ------------------------------------------------------------------ -/
/- C4 -/
/- ------------------------------------------------------------------ -/

/-- C4 counterexample: with `autolinks = true` but `default_title = true`
and visible text equal to the href, the anchor is not emitted as an
autolink, so the claim's "for all settings of the remaining options"
fails. -/
theorem c4_counterexample :
    anchor_emit (ConvOptions.mk true true false false [] [])
        "https://e".toList "https://e".toList "https://e".toList none ≠
      '<' :: "https://e".toList ++ ['>'] := by
  decide

/-- C4 (amended): when `autolinks` is set, `default_title` is not set, the
href is non-empty and the normalized visible text equals the href (or the
mailto address), the anchor is emitted as an autolink: the bare address for
the mailto case and the href otherwise, wrapped in angle brackets. -/
theorem c4_autolink (opts : ConvOptions) (href text label : Str)
    (title : Option Str) (h1 : opts.autolinks = true)
    (h2 : opts.default_title = false) (h3 : href ≠ [])
    (h4 : text = href ∨
      (starts_with "mailto:".toList href = true ∧ text = href.drop 7)) :
    anchor_emit opts href text label title =
      '<' ::
        (if starts_with "mailto:".toList href && text == href.drop 7 then
          text
        else href) ++ ['>'] := by
  have hauto : is_autolink opts href text = true := by
    rw [is_autolink, h1, h2]
    have hne : href.isEmpty = false := by
      cases href with
      | nil => exact absurd rfl h3
      | cons c cs => rfl
    rw [hne]
    rcases h4 with h | ⟨hm, he⟩
    · have hb : (text == href) = true := by rw [h]; simp
      rw [hb]
      simp
    · have hb : (text == href.drop 7) = true := by rw [he]; simp
      rw [hm, hb]
      simp
  rw [anchor_emit, if_pos hauto]
  simp only [autolink_emit]

/-- C4 witness: the autolink emission for a mailto anchor whose text equals
the address. -/
theorem c4_autolink_witness :
    anchor_emit (ConvOptions.mk true false false false [] [])
        "mailto:a@b".toList "a@b".toList "a@b".toList none =
      '<' ::
        (if starts_with "mailto:".toList "mailto:a@b".toList &&
            "a@b".toList == "mailto:a@b".toList.drop 7 then
          "a@b".toList
        else "mailto:a@b".toList) ++ ['>'] :=
  c4_autolink (ConvOptions.mk true false false false [] [])
    "mailto:a@b".toList "a@b".toList "a@b".toList none rfl rfl (by decide)
    (Or.inr ⟨by decide, by decide⟩)

/- ------------------------------------------------------------------ -/
/- C5 -/
/- ------------------------------------------------------------------ -/

/-- C5 counterexample: the comment `<!-- -->` contains no tag whose tag
name contains a hyphen, yet `has_custom_element_tags` reports true, so the
"if and only if" of the claim fails. -/
theorem c5_counterexample :
    has_custom_element_tags "<!-- -->".toList = true ∧
      spec_hyphen_tag "<!-- -->".toList = false := by
  decide

theorem has_custom_scan_skip (xs r : Str) :
    '<' ∉ xs →
      has_custom_scan ScanState.text (xs ++ r) = has_custom_scan ScanState.text r := by
  induction xs with
  | nil => intro _; rfl
  | cons x xt ih =>
    intro h
    have hx : ¬ (x = '<') := by
      intro he
      exact h (by simp [he])
    simp only [List.cons_append, has_custom_scan]
    rw [if_neg hx]
    exact ih (fun hm => h (List.mem_cons_of_mem _ hm))

theorem has_custom_scan_text_lt (rest : Str) :
    has_custom_scan ScanState.text ('<' :: rest) =
      has_custom_scan ScanState.afterLt rest := by
  simp [has_custom_scan]

theorem has_custom_scan_text_other {c : Char} (h : ¬ (c = '<')) (rest : Str) :
    has_custom_scan ScanState.text (c :: rest) =
      has_custom_scan ScanState.text rest := by
  simp [has_custom_scan, h]

theorem has_custom_scan_inName_cons {c : Char} (b : Bool)
    (hc : is_scan_term c = false) (rest : Str) :
    has_custom_scan (ScanState.inName b) (c :: rest) =
      has_custom_scan (ScanState.inName (b || decide (c = '-'))) rest := by
  simp only [has_custom_scan]
  rw [if_neg (by simp [hc])]

theorem has_custom_scan_inName_term {t : Char} (b : Bool)
    (ht : is_scan_term t = true) (rest : Str) :
    has_custom_scan (ScanState.inName b) (t :: rest) =
      (if b then true else has_custom_scan ScanState.text rest) := by
  simp only [has_custom_scan]
  rw [if_pos ht]

theorem has_custom_scan_inName_run (name : Str) (t : Char) (rest : Str) :
    ∀ (b : Bool), (∀ c ∈ name, is_scan_term c = false) → is_scan_term t = true →
      has_custom_scan (ScanState.inName b) (name ++ t :: rest) =
        (if b || name.contains '-' then true
         else has_custom_scan ScanState.text rest) := by
  induction name with
  | nil =>
    intro b _ ht
    rw [List.nil_append, has_custom_scan_inName_term b ht rest]
    cases b <;> simp
  | cons c cs ih =>
    intro b hname ht
    have hc : is_scan_term c = false := hname c (by simp)
    rw [List.cons_append, has_custom_scan_inName_cons b hc,
      ih (b || decide (c = '-')) (fun d hd => hname d (by simp [hd])) ht]
    have hcond : ((b || decide (c = '-')) || cs.contains '-') =
        (b || (c :: cs).contains '-') := by
      rcases Decidable.em (c = '-') with h | h
      · simp [h, List.contains_cons]
      · have hb : ¬ ('-' = c) := Ne.symm h
        simp [h, hb, List.contains_cons, Bool.or_assoc]
    rw [hcond]

/-- C5 (amended): the custom-element repair trigger is a byte scanner, so
(i) a tag whose name contains a hyphen triggers it, (ii) a tag with a
hyphen-free name does not trigger it through its attribute section (when
that section contains no `<`), and (iii) an input without `<` never
triggers it; but, as the counterexample shows, hyphens in comments or in
text directly after a `<` also trigger it, so the trigger is not exactly
"contains a hyphenated tag". -/
theorem c5_scanner_characterization :
    (∀ (pre name rest : Str), '<' ∉ pre → '-' ∈ name →
      (∀ c ∈ name, is_scan_term c = false) →
      has_custom_element_tags (pre ++ '<' :: (name ++ '>' :: rest)) = true) ∧
    (∀ (name attrs rest : Str), name ≠ [] → name.contains '-' = false →
      (∀ c ∈ name, is_scan_term c = false) → '<' ∉ attrs →
      has_custom_element_tags ('<' :: (name ++ ' ' :: (attrs ++ '>' :: rest))) =
        has_custom_element_tags rest) ∧
    (∀ s : Str, '<' ∉ s → has_custom_element_tags s = false) := by
  have step_afterLt : ∀ (n0 : Char) (l : Str),
      is_scan_term n0 = false →
      has_custom_scan ScanState.afterLt (n0 :: l) =
        has_custom_scan (ScanState.inName (decide (n0 = '-'))) l := by
    intro n0 l hterm
    have h1 : ¬ (n0 = '/') := by
      intro he
      rw [he] at hterm
      exact absurd hterm (by decide)
    have h2 : is_ascii_ws n0 = false := by
      simp [is_scan_term] at hterm
      exact hterm.2
    simp only [has_custom_scan]
    rw [if_neg h1, if_neg (by simp [h2]), if_neg (by simp [hterm])]
  refine ⟨?_, ?_, ?_⟩
  · intro pre name rest hpre hmem hname
    rw [has_custom_element_tags, has_custom_scan_skip pre _ hpre,
      has_custom_scan_text_lt]
    cases name with
    | nil => simp at hmem
    | cons n0 ns =>
      rw [List.cons_append, step_afterLt n0 _ (hname n0 (by simp)),
        has_custom_scan_inName_run ns '>' rest (decide (n0 = '-'))
          (fun d hd => hname d (by simp [hd])) (by decide)]
      have hcond : (decide (n0 = '-') || ns.contains '-') = true := by
        rcases List.mem_cons.mp hmem with h | h
        · simp [h.symm]
        · simp [h]
      rw [if_pos hcond]
  · intro name attrs rest hne hnc hname hattrs
    cases name with
    | nil => exact absurd rfl hne
    | cons n0 ns =>
      rw [has_custom_element_tags, has_custom_scan_text_lt,
        List.cons_append, step_afterLt n0 _ (hname n0 (by simp)),
        has_custom_scan_inName_run ns ' ' (attrs ++ '>' :: rest)
          (decide (n0 = '-')) (fun d hd => hname d (by simp [hd])) (by decide)]
      have hcond2 : ¬ ((decide (n0 = '-') || ns.contains '-') = true) := by
        intro habs
        simp only [List.contains_cons, Bool.or_eq_false_iff] at hnc
        rcases Bool.or_eq_true_iff.mp habs with h | h
        · have hd : n0 = '-' := of_decide_eq_true h
          have h1 := hnc.1
          rw [hd] at h1
          simp at h1
        · rw [hnc.2] at h
          exact Bool.false_ne_true h
      rw [if_neg hcond2, has_custom_scan_skip attrs _ hattrs,
        has_custom_scan_text_other (by decide) rest]
      rfl
  · intro s hs
    rw [has_custom_element_tags, ← List.append_nil s,
      has_custom_scan_skip s [] hs]
    rfl

/-- C5 witness: the three amended properties evaluated on concrete inputs:
a hyphenated tag after plain text, a hyphen confined to an attribute, and
an input without any angle bracket. -/
theorem c5_scanner_characterization_witness :
    has_custom_element_tags ("x ".toList ++ '<' :: ("a-b".toList ++ '>' :: "c".toList)) = true ∧
    has_custom_element_tags ('<' :: ("p".toList ++ ' ' :: ("a-b=c".toList ++ '>' :: " d".toList))) =
      has_custom_element_tags " d".toList ∧
    has_custom_element_tags "no tags - here".toList = false :=
  ⟨c5_scanner_characterization.1 "x ".toList "a-b".toList "c".toList
      (by decide) (by decide) (by decide),
   c5_scanner_characterization.2.1 "p".toList "a-b=c".toList " d".toList
      (by decide) (by decide) (by decide) (by decide),
   c5_scanner_characterization.2.2 "no tags - here".toList (by decide)⟩

/- ------------------------------------------------------------------ -/
/- C7 -/
/- ------------------------------------------------------------------ -/

/-- C7: the `br` handler: inside a heading it trims trailing spaces/tabs
and appends exactly two spaces (the trimmed part no longer ends in a space
or tab); otherwise it appends a single newline when the output is empty or
already ends with one, and otherwise a hard break per `newline_style`. -/
theorem c7_br_handler (style : NewlineStyle) (out : Str) :
    (br_step true style out = trim_trailing_whitespace out ++ [' ', ' '] ∧
      (trim_trailing_whitespace out).getLast? ≠ some ' ' ∧
      (trim_trailing_whitespace out).getLast? ≠ some '\t') ∧
    ((out = [] ∨ out.getLast? = some '\n') →
      br_step false style out = out ++ ['\n']) ∧
    (out ≠ [] → out.getLast? ≠ some '\n' →
      br_step false NewlineStyle.spaces out = out ++ [' ', ' ', '\n'] ∧
      br_step false NewlineStyle.backslash out = out ++ ['\\', '\n']) := by
  refine ⟨⟨by simp [br_step], ?_, ?_⟩, ?_, ?_⟩
  · intro hl
    rw [trim_trailing_whitespace] at hl
    have := dropTrailing_getLast?_not hl
    exact absurd this (by decide)
  · intro hl
    rw [trim_trailing_whitespace] at hl
    have := dropTrailing_getLast?_not hl
    exact absurd this (by decide)
  · intro h
    simp only [br_step]
    rw [if_neg (by simp), if_pos h]
  · intro h1 h2
    have hcond : ¬ (out = [] ∨ out.getLast? = some '\n') := by
      rintro (h | h)
      · exact h1 h
      · exact h2 h
    constructor
    · simp only [br_step]
      rw [if_neg (by simp), if_neg hcond]
    · simp only [br_step]
      rw [if_neg (by simp), if_neg hcond]

/-- C7 witness: the hard-break emission on a non-empty output not ending in
a newline, in both newline styles. -/
theorem c7_br_handler_witness :
    br_step false NewlineStyle.spaces ['a'] = ['a'] ++ [' ', ' ', '\n'] ∧
    br_step false NewlineStyle.backslash ['a'] = ['a'] ++ ['\\', '\n'] :=
  (c7_br_handler NewlineStyle.spaces ['a']).2.2 (by decide) (by decide)

/- ------------------------------------------------------------------ -/
/- C8 -/
/- ------------------------------------------------------------------ -/

/-- C8 counterexample: a single-newline whitespace text node between two
inline siblings emits nothing (the newline branch swallows it) instead of
the claimed unchanged character; and in Strict mode a two-space text node
between inline siblings is emitted verbatim (two spaces), not collapsed to
one. -/
theorem c8_counterexample :
    (raw_ws_step false WhitespaceMode.normalized false false false false true true
        ['\n'] ['a', 'b'] = ['a', 'b'] ∧
      (['a', 'b'] : Str) ≠ ['a', 'b', '\n']) ∧
    (raw_ws_step false WhitespaceMode.strict false false false false true true
        [' ', ' '] ['a', 'b'] = ['a', 'b', ' ', ' '] ∧
      (['a', 'b', ' ', ' '] : Str) ≠ ['a', 'b', ' ']) := by
  decide

theorem has_more_than_one_char_map (f : Char → Char) (s : Str) :
    has_more_than_one_char (s.map f) = has_more_than_one_char s := by
  cases s with
  | nil => rfl
  | cons a t => cases t <;> rfl

/-- C8 (amended): in Normalized mode, outside code, a whitespace-only text
node without newlines between two inline siblings adds at most one space:
with more than one character a single space is appended unless the output
already ends with one; a single character is appended unchanged (after the
strip-newlines replacement when that option is set). -/
theorem c8_inline_whitespace_collapse (strip_nl : Bool) (text out : Str)
    (hws : all_whitespace text = true) (hne : text ≠ [])
    (hnl : text.contains '\n' = false) :
    (has_more_than_one_char text = true →
      raw_ws_step false WhitespaceMode.normalized false false false strip_nl
          true true text out =
        (if out.getLast? = some ' ' then out else out ++ [' '])) ∧
    (has_more_than_one_char text = false →
      raw_ws_step false WhitespaceMode.normalized false false false strip_nl
          true true text out =
        out ++ (if strip_nl then strip_newlines_replace text else text)) := by
  have hmap : has_more_than_one_char
      (if strip_nl then strip_newlines_replace text else text) =
        has_more_than_one_char text := by
    cases strip_nl
    · rfl
    · simp only [if_pos rfl, strip_newlines_replace]
      exact has_more_than_one_char_map _ text
  constructor
  · intro hm
    simp only [raw_ws_step]
    rw [if_neg (by simp), if_neg (by decide),
      if_neg (by rw [hnl]; exact Bool.false_ne_true),
      if_pos (by simp), if_pos (by rw [hmap]; exact hm)]
  · intro hm
    simp only [raw_ws_step]
    rw [if_neg (by simp), if_neg (by decide),
      if_neg (by rw [hnl]; exact Bool.false_ne_true),
      if_pos (by simp), if_neg (by rw [hmap]; simp [hm])]

/-- C8 witness: a two-character space-and-tab text node between inline
siblings appends a single space to an output not ending in a space. -/
theorem c8_inline_whitespace_collapse_witness :
    raw_ws_step false WhitespaceMode.normalized false false false false true true
        [' ', '\t'] ['a'] =
      (if (['a'] : Str).getLast? = some ' ' then (['a'] : Str)
       else ['a'] ++ [' ']) :=
  (c8_inline_whitespace_collapse false [' ', '\t'] ['a'] (by decide)
    (by decide) (by decide)).1 (by decide)

/- ------------------------------------------------------------------ -/
/- Line and append structure of the finalizer (used for C6) -/
/- ------------------------------------------------------------------ -/

theorem joinLinesTerm_cons (l : Str) (ls : List Str) :
    joinLinesTerm (l :: ls) = l ++ '\n' :: joinLinesTerm ls := rfl

theorem joinLinesTerm_append (xs ys : List Str) :
    joinLinesTerm (xs ++ ys) = joinLinesTerm xs ++ joinLinesTerm ys := by
  induction xs with
  | nil => rfl
  | cons x xt ih =>
    rw [List.cons_append, joinLinesTerm_cons, joinLinesTerm_cons, ih]
    simp

theorem splitNl_ne_nil (s : Str) : splitNl s ≠ [] := by
  cases s with
  | nil => simp [splitNl]
  | cons c rest =>
    rw [splitNl]
    split
    · simp
    · split <;> simp

theorem splitNl_line_append {l : Str} (h : '\n' ∉ l) (X : Str) :
    splitNl (l ++ '\n' :: X) = l :: splitNl X := by
  induction l with
  | nil =>
    rw [List.nil_append, splitNl, if_pos rfl]
  | cons c lt ih =>
    have hc : ¬ (c = '\n') := by
      intro he
      exact h (by simp [he])
    have ih2 := ih (fun hm => h (List.mem_cons_of_mem _ hm))
    rw [List.cons_append, splitNl, if_neg hc, ih2]

theorem splitNl_joinLines {ls : List Str} (h : ∀ l ∈ ls, '\n' ∉ l)
    (rest : Str) :
    splitNl (joinLinesTerm ls ++ rest) = ls ++ splitNl rest := by
  induction ls with
  | nil => rfl
  | cons l lt ih =>
    rw [joinLinesTerm_cons, List.append_assoc, List.cons_append,
      splitNl_line_append (h l (by simp)),
      ih (fun x hx => h x (List.mem_cons_of_mem _ hx)), List.cons_append]

theorem joinNl_append_of_ne_nil (xs : List Str) {ys : List Str}
    (hy : ys ≠ []) :
    joinNl (xs ++ ys) = joinLinesTerm xs ++ joinNl ys := by
  induction xs with
  | nil => rfl
  | cons x xt ih =>
    cases xt with
    | nil =>
      cases ys with
      | nil => exact absurd rfl hy
      | cons y yt =>
        rw [List.cons_append, List.nil_append, joinNl_cons_cons,
          joinLinesTerm_cons]
        simp [joinLinesTerm]
    | cons x2 xt2 =>
      rw [List.cons_append, List.cons_append, joinNl_cons_cons,
        ← List.cons_append, ih, joinLinesTerm_cons]
      simp [joinLinesTerm_cons]

theorem dropWhile_of_head_not {p : Char → Bool} :
    ∀ {l : Str}, (∀ c, l.head? = some c → p c = false) → l.dropWhile p = l := by
  intro l h
  cases l with
  | nil => rfl
  | cons c rest =>
    rw [List.dropWhile_cons, if_neg]
    intro hp
    rw [h c rfl] at hp
    exact Bool.false_ne_true hp

theorem dropTrailing_of_getLast_not {p : Char → Bool} {l : Str}
    (h : ∀ c, l.getLast? = some c → p c = false) : dropTrailing p l = l := by
  rw [dropTrailing, dropWhile_of_head_not, List.reverse_reverse]
  intro c hc
  rw [← List.getLast?_reverse] at hc
  simp only [List.reverse_reverse] at hc
  exact h c hc

theorem clean_line_id {l : Str}
    (h : ∀ c, l.getLast? = some c → is_space_tab c = false) :
    clean_line l = l := by
  rw [clean_line]
  have h2 : ends_with_two_spaces l = false := by
    rw [ends_with_two_spaces]
    split
    · rename_i t heq
      have hrev : l.getLast? = some ' ' := by
        have hx := List.getLast?_reverse l.reverse
        rw [List.reverse_reverse] at hx
        rw [hx, heq]
        rfl
      exact absurd (h ' ' hrev) (by decide)
    · rfl
  rw [h2]
  simp only [Bool.false_eq_true, if_false]
  exact dropTrailing_of_getLast_not h

theorem dropTrailing_append (p : Char → Bool) (a b : Str) :
    dropTrailing p (a ++ b) =
      if dropTrailing p b = [] then dropTrailing p a
      else a ++ dropTrailing p b := by
  rw [dropTrailing, List.reverse_append, List.dropWhile_append]
  by_cases hb : b.reverse.dropWhile p = []
  · rw [if_pos (by simp [hb]), if_pos (by simp [dropTrailing, hb])]
    rfl
  · rw [if_neg (by simp [hb]), if_neg (by simp [dropTrailing, hb])]
    rw [List.reverse_append, List.reverse_reverse]
    rfl

theorem map_clean_line_id :
    ∀ (xs : List Str), (∀ l ∈ xs, clean_line l = l) →
      xs.map clean_line = xs := by
  intro xs hxs
  induction xs with
  | nil => rfl
  | cons a t ih =>
    rw [List.map_cons, hxs a (by simp),
      ih (fun x hx => hxs x (List.mem_cons_of_mem _ hx))]

/-- Appending anything after newline-terminated clean lines keeps those
lines as a prefix of the finalized output. -/
theorem finalize_append_clean_lines (ls : List Str) (rest : Str)
    (hnl : ∀ l ∈ ls, '\n' ∉ l) (hcl : ∀ l ∈ ls, clean_line l = l)
    (l0 : Str) (ls0 : List Str) (hsplit : ls = ls0 ++ [l0]) (hl0ne : l0 ≠ [])
    (hl0 : l0.getLast? ≠ some '\n') :
    ∃ t, finalize_output (joinLinesTerm ls ++ rest) =
      joinLinesTerm ls ++ t := by
  have hJne : joinLinesTerm ls ++ rest ≠ [] := by
    rw [hsplit, joinLinesTerm_append, joinLinesTerm_cons]
    simp
  have hsplitne : (splitNl rest).map clean_line ≠ [] := by
    intro h
    rcases hsp : splitNl rest with _ | ⟨a, t⟩
    · exact splitNl_ne_nil rest hsp
    · rw [hsp] at h
      simp at h
  have hclean_eq : trim_line_end_whitespace (joinLinesTerm ls ++ rest) =
      joinLinesTerm ls ++
        (joinNl ((splitNl rest).map clean_line) ++ ['\n']) := by
    rw [trim_line_end_whitespace, if_neg hJne, splitNl_joinLines hnl rest,
      List.map_append, map_clean_line_id ls hcl,
      joinNl_append_of_ne_nil ls hsplitne, List.append_assoc]
  by_cases hD : dropTrailing (fun c => c = '\n')
      (joinNl ((splitNl rest).map clean_line) ++ ['\n']) = []
  · have hJ0 : joinLinesTerm ls = joinLinesTerm ls0 ++ (l0 ++ ['\n']) := by
      rw [hsplit, joinLinesTerm_append]
      rfl
    have hDl0 : dropTrailing (fun c => c = '\n') (l0 ++ ['\n']) = l0 := by
      rw [dropTrailing_append, if_pos (by rfl)]
      exact dropTrailing_of_getLast_not (fun c hc => by
        have hcc : ¬ (c = '\n') := fun he => hl0 (he ▸ hc)
        simp [hcc])
    have htrim : trim_end_newlines
        (trim_line_end_whitespace (joinLinesTerm ls ++ rest)) =
          joinLinesTerm ls0 ++ l0 := by
      rw [hclean_eq, trim_end_newlines, dropTrailing_append, if_pos hD,
        hJ0, ← trim_end_newlines, trim_end_newlines, dropTrailing_append,
        hDl0, if_neg hl0ne]
    refine ⟨[], ?_⟩
    have hne2 : joinLinesTerm ls0 ++ l0 ≠ [] := by
      simp [hl0ne]
    rw [finalize_output, htrim, if_neg hne2, List.append_assoc, ← hJ0,
      List.append_nil]
  · have htrim : trim_end_newlines
        (trim_line_end_whitespace (joinLinesTerm ls ++ rest)) =
          joinLinesTerm ls ++ dropTrailing (fun c => c = '\n')
            (joinNl ((splitNl rest).map clean_line) ++ ['\n']) := by
      rw [hclean_eq, trim_end_newlines, dropTrailing_append, if_neg hD]
    have hne2 : joinLinesTerm ls ++ dropTrailing (fun c => c = '\n')
        (joinNl ((splitNl rest).map clean_line) ++ ['\n']) ≠ [] := by
      simp [hD]
    refine ⟨dropTrailing (fun c => c = '\n')
      (joinNl ((splitNl rest).map clean_line) ++ ['\n']) ++ ['\n'], ?_⟩
    rw [finalize_output, htrim, if_neg hne2, List.append_assoc]

theorem foldr_lines_tail (m : List (Str × Str)) (tail : Str) :
    m.foldr (fun kv acc => kv.1 ++ ": ".toList ++ kv.2 ++ '\n' :: acc) tail =
      joinLinesTerm (m.map (fun kv => kv.1 ++ ": ".toList ++ kv.2)) ++
        tail := by
  induction m with
  | nil => rfl
  | cons kv mt ih =>
    rw [List.foldr_cons, ih, List.map_cons, joinLinesTerm_cons]
    simp

theorem joinLinesTerm_foldr_tail (xs : List Str) (tail : Str) :
    xs.foldr (fun l acc => l ++ '\n' :: acc) tail =
      joinLinesTerm xs ++ tail := by
  induction xs with
  | nil => rfl
  | cons x xt ih =>
    rw [List.foldr_cons, ih, joinLinesTerm_cons]
    simp

theorem format_eq_joinLines (m : List (Str × Str)) :
    format_metadata_frontmatter m = joinLinesTerm (front_lines m) := by
  rw [format_metadata_frontmatter, foldr_lines_tail m [], List.append_nil]
  simp only [front_lines, joinLinesTerm]
  rw [List.foldr_append, List.foldr_cons, joinLinesTerm_foldr_tail]
  simp [joinLinesTerm]
  exact (joinLinesTerm_foldr_tail _ _).symm

/- ------------------------------------------------------------------ -/
/- Sortedness of the metadata map (used for C6) -/
/- ------------------------------------------------------------------ -/

theorem str_lt_total (a : Str) : ∀ (b : Str),
    str_lt a b = true ∨ a = b ∨ str_lt b a = true := by
  induction a with
  | nil =>
    intro b
    cases b with
    | nil => exact Or.inr (Or.inl rfl)
    | cons y ys => exact Or.inl rfl
  | cons x xs ih =>
    intro b
    cases b with
    | nil => exact Or.inr (Or.inr rfl)
    | cons y ys =>
      rcases lt_trichotomy x y with h | h | h
      · left
        simp [str_lt, h]
      · subst h
        rcases ih ys with h2 | h2 | h2
        · left
          simp [str_lt, lt_irrefl, h2]
        · exact Or.inr (Or.inl (by rw [h2]))
        · right
          right
          simp [str_lt, lt_irrefl, h2]
      · right
        right
        simp [str_lt, h]

theorem meta_insert_head (k v : Str) :
    ∀ (m : List (Str × Str)), (meta_insert k v m).head? = some (k, v) ∨
      (meta_insert k v m).head? = m.head? := by
  intro m
  cases m with
  | nil => exact Or.inl rfl
  | cons p rest =>
    obtain ⟨k2, v2⟩ := p
    rw [meta_insert]
    split
    · exact Or.inl rfl
    · split
      · exact Or.inl rfl
      · exact Or.inr rfl

theorem sorted_meta_insert (k v : Str) :
    ∀ (m : List (Str × Str)), sorted_keys m →
      sorted_keys (meta_insert k v m) := by
  intro m
  induction m with
  | nil =>
    intro _
    simp [meta_insert, sorted_keys]
  | cons p rest ih =>
    obtain ⟨k2, v2⟩ := p
    intro hs
    rw [sorted_keys] at hs
    rw [meta_insert]
    split
    · rename_i hlt
      exact List.chain'_cons.mpr ⟨hlt, hs⟩
    · split
      · rename_i hlt hbe
        have hk : k = k2 := by
          have := of_decide_eq_true (by simpa using hbe)
          exact this
        rw [sorted_keys]
        rw [List.chain'_cons'] at hs ⊢
        refine ⟨?_, hs.2⟩
        intro y hy
        have := hs.1 y hy
        simpa [hk] using this
      · rename_i hlt hbe
        rw [sorted_keys]
        rw [List.chain'_cons'] at hs ⊢
        refine ⟨?_, ih hs.2⟩
        intro y hy
        have hk2k : str_lt k2 k = true := by
          rcases str_lt_total k k2 with h | h | h
          · rw [h] at hlt
            exact absurd rfl hlt
          · rw [h] at hbe
            simp at hbe
          · exact h
        rcases meta_insert_head k v rest with hh | hh
        · rw [hh] at hy
          simp only [Option.mem_def, Option.some.injEq] at hy
          rw [← hy]
          exact hk2k
        · rw [hh] at hy
          exact hs.1 y hy

theorem sorted_head_meta_name_step {cattrs : List (Str × Option Str)}
    {m : List (Str × Str)} (hs : sorted_keys m) :
    sorted_keys (head_meta_name_step cattrs m) := by
  rw [head_meta_name_step]
  split
  · exact sorted_meta_insert _ _ m hs
  · exact hs

theorem sorted_head_meta_property_step {cattrs : List (Str × Option Str)}
    {m : List (Str × Str)} (hs : sorted_keys m) :
    sorted_keys (head_meta_property_step cattrs m) := by
  rw [head_meta_property_step]
  split
  · exact sorted_meta_insert _ _ m hs
  · exact hs

theorem sorted_head_meta_step {opts : ConvOptions} {cname : Str}
    {cattrs : List (Str × Option Str)} {m : List (Str × Str)}
    (hs : sorted_keys m) : sorted_keys (head_meta_step opts cname cattrs m) := by
  rw [head_meta_step]
  split
  · exact sorted_head_meta_property_step (sorted_head_meta_name_step hs)
  · exact hs

theorem sorted_head_title_step {opts : ConvOptions} {cname : Str}
    {cchildren : List HNode} {m : List (Str × Str)} (hs : sorted_keys m) :
    sorted_keys (head_title_step opts cname cchildren m) := by
  rw [head_title_step]
  split
  · split
    · exact hs
    · exact sorted_meta_insert _ _ m hs
  · exact hs

theorem sorted_head_link_step {cname : Str}
    {cattrs : List (Str × Option Str)} {m : List (Str × Str)}
    (hs : sorted_keys m) : sorted_keys (head_link_step cname cattrs m) := by
  rw [head_link_step]
  split
  · split
    · split
      · split
        · exact sorted_meta_insert _ _ m hs
        · exact hs
      · exact hs
    · exact hs
  · exact hs

theorem sorted_head_base_step {cname : Str}
    {cattrs : List (Str × Option Str)} {m : List (Str × Str)}
    (hs : sorted_keys m) : sorted_keys (head_base_step cname cattrs m) := by
  rw [head_base_step]
  split
  · split
    · exact sorted_meta_insert _ _ m hs
    · exact hs
  · exact hs

theorem sorted_process_head_child {opts : ConvOptions} {child : HNode}
    {m : List (Str × Str)} (hs : sorted_keys m) :
    sorted_keys (process_head_child opts child m) := by
  cases child with
  | raw t => exact hs
  | comment => exact hs
  | tag cname cattrs cchildren =>
    exact sorted_head_base_step (sorted_head_link_step
      (sorted_head_title_step (sorted_head_meta_step hs)))

theorem sorted_foldl_process {opts : ConvOptions} :
    ∀ (ch : List HNode) (m : List (Str × Str)), sorted_keys m →
      sorted_keys (ch.foldl (fun acc c => process_head_child opts c acc) m) := by
  intro ch
  induction ch with
  | nil => intro m hm; exact hm
  | cons c rest ih =>
    intro m hm
    rw [List.foldl_cons]
    exact ih _ (sorted_process_head_child hm)

mutual

theorem sorted_extract (opts : ConvOptions) :
    ∀ (n : HNode), sorted_keys (extract_head_metadata opts n)
  | HNode.tag name attrs children => by
    rw [extract_head_metadata]
    split
    · exact sorted_foldl_process children [] List.chain'_nil
    · exact sorted_extract_list opts children

  | HNode.raw t => List.chain'_nil
  | HNode.comment => List.chain'_nil

theorem sorted_extract_list (opts : ConvOptions) :
    ∀ (l : List HNode), sorted_keys (extract_head_list opts l)
  | [] => List.chain'_nil
  | c :: rest => by
    rw [extract_head_list]
    split
    · exact sorted_extract_list opts rest
    · exact sorted_extract opts c

end

/- ------------------------------------------------------------------ -/
/- C9 -/
/- ------------------------------------------------------------------ -/

/- ------------------------------------------------------------------ -/
/- C9 -/
/- ------------------------------------------------------------------ -/

theorem mem_meta_insert {k v : Str} :
    ∀ {m : List (Str × Str)} {kv : Str × Str}, kv ∈ meta_insert k v m →
      kv = (k, v) ∨ kv ∈ m := by
  intro m
  induction m with
  | nil =>
    intro kv h
    rw [meta_insert] at h
    exact Or.inl (by simpa using h)
  | cons p rest ih =>
    intro kv h
    obtain ⟨k2, v2⟩ := p
    rw [meta_insert] at h
    split at h
    · rcases List.mem_cons.mp h with h1 | h1
      · exact Or.inl h1
      · exact Or.inr h1
    · split at h
      · rcases List.mem_cons.mp h with h1 | h1
        · exact Or.inl h1
        · exact Or.inr (List.mem_cons_of_mem _ h1)
      · rcases List.mem_cons.mp h with h1 | h1
        · exact Or.inr (by simp [h1])
        · rcases ih h1 with h2 | h2
          · exact Or.inl h2
          · exact Or.inr (List.mem_cons_of_mem _ h2)

/-- The possible keys of a head-metadata entry, with the gate that must
have been open for the key to appear. -/
def head_key_shape (opts : ConvOptions) (k : Str) : Prop :=
  (k = "title".toList ∧ opts.strip_tags.contains "title".toList = false ∧
    opts.preserve_tags.contains "title".toList = false) ∨
  k = "canonical".toList ∨
  k = "base".toList ∨
  ((∃ s, k = "meta-".toList ++ s) ∧
    opts.strip_tags.contains "meta".toList = false ∧
    opts.preserve_tags.contains "meta".toList = false)

theorem mem_head_meta_name_step {cattrs : List (Str × Option Str)}
    {m : List (Str × Str)} {kv : Str × Str}
    (h : kv ∈ head_meta_name_step cattrs m) :
    kv ∈ m ∨ ∃ s, kv.1 = "meta-".toList ++ s := by
  rw [head_meta_name_step] at h
  split at h
  · rcases mem_meta_insert h with h1 | h1
    · exact Or.inr ⟨_, by rw [h1]⟩
    · exact Or.inl h1
  · exact Or.inl h

theorem mem_head_meta_property_step {cattrs : List (Str × Option Str)}
    {m : List (Str × Str)} {kv : Str × Str}
    (h : kv ∈ head_meta_property_step cattrs m) :
    kv ∈ m ∨ ∃ s, kv.1 = "meta-".toList ++ s := by
  rw [head_meta_property_step] at h
  split at h
  · rcases mem_meta_insert h with h1 | h1
    · exact Or.inr ⟨_, by rw [h1]⟩
    · exact Or.inl h1
  · exact Or.inl h

theorem mem_head_meta_step {opts : ConvOptions} {cname : Str}
    {cattrs : List (Str × Option Str)} {m : List (Str × Str)}
    {kv : Str × Str} (h : kv ∈ head_meta_step opts cname cattrs m) :
    kv ∈ m ∨
      ((∃ s, kv.1 = "meta-".toList ++ s) ∧
        opts.strip_tags.contains "meta".toList = false ∧
        opts.preserve_tags.contains "meta".toList = false) := by
  rw [head_meta_step] at h
  split at h
  · rename_i hcond
    have hgate : opts.strip_tags.contains "meta".toList = false ∧
        opts.preserve_tags.contains "meta".toList = false := by
      rcases Bool.and_eq_true_iff.mp hcond with ⟨h1, h2⟩
      rcases Bool.and_eq_true_iff.mp h1 with ⟨_, h3⟩
      constructor
      · simpa using h3
      · simpa using h2
    rcases mem_head_meta_property_step h with h1 | h1
    · rcases mem_head_meta_name_step h1 with h2 | h2
      · exact Or.inl h2
      · exact Or.inr ⟨h2, hgate⟩
    · exact Or.inr ⟨h1, hgate⟩
  · exact Or.inl h

theorem mem_head_title_step {opts : ConvOptions} {cname : Str}
    {cchildren : List HNode} {m : List (Str × Str)} {kv : Str × Str}
    (h : kv ∈ head_title_step opts cname cchildren m) :
    kv ∈ m ∨
      (kv.1 = "title".toList ∧
        opts.strip_tags.contains "title".toList = false ∧
        opts.preserve_tags.contains "title".toList = false) := by
  rw [head_title_step] at h
  split at h
  · rename_i hcond
    have hgate : opts.strip_tags.contains "title".toList = false ∧
        opts.preserve_tags.contains "title".toList = false := by
      rcases Bool.and_eq_true_iff.mp hcond with ⟨h1, h2⟩
      rcases Bool.and_eq_true_iff.mp h1 with ⟨_, h3⟩
      constructor
      · simpa using h3
      · simpa using h2
    split at h
    · exact Or.inl h
    · rcases mem_meta_insert h with h1 | h1
      · exact Or.inr ⟨by rw [h1], hgate⟩
      · exact Or.inl h1
  · exact Or.inl h

theorem mem_head_link_step {cname : Str} {cattrs : List (Str × Option Str)}
    {m : List (Str × Str)} {kv : Str × Str}
    (h : kv ∈ head_link_step cname cattrs m) :
    kv ∈ m ∨ kv.1 = "canonical".toList := by
  rw [head_link_step] at h
  split at h
  · split at h
    · split at h
      · split at h
        · rcases mem_meta_insert h with h1 | h1
          · exact Or.inr (by rw [h1])
          · exact Or.inl h1
        · exact Or.inl h
      · exact Or.inl h
    · exact Or.inl h
  · exact Or.inl h

theorem mem_head_base_step {cname : Str} {cattrs : List (Str × Option Str)}
    {m : List (Str × Str)} {kv : Str × Str}
    (h : kv ∈ head_base_step cname cattrs m) :
    kv ∈ m ∨ kv.1 = "base".toList := by
  rw [head_base_step] at h
  split at h
  · split at h
    · rcases mem_meta_insert h with h1 | h1
      · exact Or.inr (by rw [h1])
      · exact Or.inl h1
    · exact Or.inl h
  · exact Or.inl h

theorem mem_process_head_child {opts : ConvOptions} {child : HNode}
    {m : List (Str × Str)} {kv : Str × Str}
    (h : kv ∈ process_head_child opts child m) :
    kv ∈ m ∨ head_key_shape opts kv.1 := by
  cases child with
  | raw t => exact Or.inl h
  | comment => exact Or.inl h
  | tag cname cattrs cchildren =>
    rw [process_head_child] at h
    rcases mem_head_base_step h with h1 | h1
    · rcases mem_head_link_step h1 with h2 | h2
      · rcases mem_head_title_step h2 with h3 | h3
        · rcases mem_head_meta_step h3 with h4 | h4
          · exact Or.inl h4
          · exact Or.inr (Or.inr (Or.inr (Or.inr h4)))
        · exact Or.inr (Or.inl h3)
      · exact Or.inr (Or.inr (Or.inl h2))
    · exact Or.inr (Or.inr (Or.inr (Or.inl h1)))

theorem mem_foldl_process {opts : ConvOptions} :
    ∀ (ch : List HNode) (m : List (Str × Str)) (kv : Str × Str),
      kv ∈ ch.foldl (fun acc c => process_head_child opts c acc) m →
      kv ∈ m ∨ head_key_shape opts kv.1 := by
  intro ch
  induction ch with
  | nil => intro m kv h; exact Or.inl h
  | cons c rest ih =>
    intro m kv h
    rw [List.foldl_cons] at h
    rcases ih (process_head_child opts c m) kv h with h1 | h1
    · exact mem_process_head_child h1
    · exact Or.inr h1

mutual

theorem extract_key_shape (opts : ConvOptions) :
    ∀ (n : HNode) (kv : Str × Str), kv ∈ extract_head_metadata opts n →
      head_key_shape opts kv.1
  | HNode.tag name attrs children, kv, h => by
    rw [extract_head_metadata] at h
    split at h
    · rcases mem_foldl_process children [] kv h with h1 | h1
      · exact absurd h1 (List.not_mem_nil kv)
      · exact h1
    · exact extract_list_key_shape opts children kv h

  | HNode.raw t, kv, h => absurd h (List.not_mem_nil kv)
  | HNode.comment, kv, h => absurd h (List.not_mem_nil kv)

theorem extract_list_key_shape (opts : ConvOptions) :
    ∀ (l : List HNode) (kv : Str × Str), kv ∈ extract_head_list opts l →
      head_key_shape opts kv.1
  | [], kv, h => absurd h (List.not_mem_nil kv)
  | c :: rest, kv, h => by
    rw [extract_head_list] at h
    split at h
    · exact extract_list_key_shape opts rest kv h
    · exact extract_key_shape opts c kv h

end

/-- C9 counterexample: a document with two `head` elements where the first
yields no entries: the title of the second head is extracted, so more than
the first head element found is processed. -/
theorem c9_counterexample :
    extract_head_metadata (ConvOptions.mk false false true false [] [])
        (HNode.tag "html".toList []
          [HNode.tag "head".toList [] [],
           HNode.tag "head".toList []
             [HNode.tag "title".toList [] [HNode.raw "T".toList]]]) =
      [("title".toList, "T".toList)] ∧
    extract_head_metadata (ConvOptions.mk false false true false [] [])
        (HNode.tag "head".toList [] []) = [] := by
  decide

/-- C9 (amended): `meta` contributes no `meta-*` entry when `meta` is in
the strip or preserve set, `title` contributes no `title` entry when
`title` is listed, and a non-head element forwards to the first child
subtree yielding a non-empty entry set (heads yielding no entries do not
stop the search). -/
theorem c9_head_metadata_rules (opts : ConvOptions) :
    ((opts.strip_tags.contains "meta".toList = true ∨
        opts.preserve_tags.contains "meta".toList = true) →
      ∀ (n : HNode) (kv : Str × Str), kv ∈ extract_head_metadata opts n →
        ¬ ∃ s, kv.1 = "meta-".toList ++ s) ∧
    ((opts.strip_tags.contains "title".toList = true ∨
        opts.preserve_tags.contains "title".toList = true) →
      ∀ (n : HNode) (kv : Str × Str), kv ∈ extract_head_metadata opts n →
        kv.1 ≠ "title".toList) ∧
    (∀ (name : Str) (attrs : List (Str × Option Str)) (c : HNode)
        (rest : List HNode),
      eq_ignore_ascii_case name "head".toList = false →
      extract_head_metadata opts c ≠ [] →
      extract_head_metadata opts (HNode.tag name attrs (c :: rest)) =
        extract_head_metadata opts c) := by
  refine ⟨?_, ?_, ?_⟩
  · intro hgate n kv hmem hs
    obtain ⟨s, hs⟩ := hs
    rcases extract_key_shape opts n kv hmem with h | h | h | h
    · rw [h.1] at hs
      simp at hs
    · rw [h] at hs
      simp at hs
    · rw [h] at hs
      simp at hs
    · rcases hgate with hg | hg
      · rw [h.2.1] at hg
        exact Bool.false_ne_true hg
      · rw [h.2.2] at hg
        exact Bool.false_ne_true hg
  · intro hgate n kv hmem ht
    rcases extract_key_shape opts n kv hmem with h | h | h | h
    · rcases hgate with hg | hg
      · rw [h.2.1] at hg
        exact Bool.false_ne_true hg
      · rw [h.2.2] at hg
        exact Bool.false_ne_true hg
    · rw [ht] at h
      simp at h
    · rw [ht] at h
      simp at h
    · obtain ⟨⟨s, hs⟩, _⟩ := h
      rw [ht] at hs
      simp at hs
  · intro name attrs c rest hname hne
    have hname2 : ¬ (eq_ignore_ascii_case name "head".toList = true) := by
      rw [hname]
      exact Bool.false_ne_true
    rw [extract_head_metadata, if_neg hname2, extract_head_list, if_neg hne]

/-- C9 witness: a non-head wrapper forwards to its first child head with a
title, and the gating rule evaluated on a document whose `meta` tag is
stripped. -/
theorem c9_head_metadata_rules_witness :
    extract_head_metadata (ConvOptions.mk false false true false ["meta".toList] [])
        (HNode.tag "html".toList []
          (HNode.tag "head".toList []
            [HNode.tag "title".toList [] [HNode.raw "T".toList]] :: [])) =
      extract_head_metadata (ConvOptions.mk false false true false ["meta".toList] [])
        (HNode.tag "head".toList []
          [HNode.tag "title".toList [] [HNode.raw "T".toList]]) :=
  (c9_head_metadata_rules
      (ConvOptions.mk false false true false ["meta".toList] [])).2.2
    "html".toList []
    (HNode.tag "head".toList []
      [HNode.tag "title".toList [] [HNode.raw "T".toList]])
    [] (by decide) (by decide)

/- ------------------------------------------------------------------ -/
/- C6 -/
/- ------------------------------------------------------------------ -/

theorem front_lines_no_newline {m : List (Str × Str)}
    (hclean : ∀ kv ∈ m, '\n' ∉ kv.1 ∧ '\n' ∉ kv.2) :
    ∀ l ∈ front_lines m, '\n' ∉ l := by
  intro l hl
  rw [front_lines] at hl
  rcases List.mem_append.mp hl with h | h
  · rcases List.mem_cons.mp h with h1 | h1
    · rw [h1]
      decide
    · obtain ⟨kv, hkv, rfl⟩ := List.mem_map.mp h1
      intro hmem
      rcases List.mem_append.mp hmem with h2 | h2
      · rcases List.mem_append.mp h2 with h3 | h3
        · exact (hclean kv hkv).1 h3
        · simp at h3
      · exact (hclean kv hkv).2 h2
  · have : l = "---".toList := by simpa using h
    rw [this]
    decide

theorem front_lines_clean {m : List (Str × Str)}
    (hclean : ∀ kv ∈ m, clean_line (kv.1 ++ ": ".toList ++ kv.2) =
      kv.1 ++ ": ".toList ++ kv.2) :
    ∀ l ∈ front_lines m, clean_line l = l := by
  intro l hl
  rw [front_lines] at hl
  rcases List.mem_append.mp hl with h | h
  · rcases List.mem_cons.mp h with h1 | h1
    · rw [h1]
      decide
    · obtain ⟨kv, hkv, rfl⟩ := List.mem_map.mp h1
      exact hclean kv hkv
  · have : l = "---".toList := by simpa using h
    rw [this]
    decide

/-- C6 counterexample: a `<meta name="x" content="y ">` whose attribute
value carries a trailing space yields the entry `meta-x: y ` — but the
finalizer trims the trailing space from that line, so the output is
`---\nmeta-x: y\n---\nhi\n` and does not begin with the formatted
`key: value` lines of the block: the prefix of the block's length differs
from the block. -/
theorem c6_counterexample :
    head_metadata_of (ConvOptions.mk false false true false [] [])
        [HNode.tag "head".toList []
          [HNode.tag "meta".toList
            [("name".toList, some "x".toList),
             ("content".toList, some "y ".toList)] []]] =
      [("meta-x".toList, "y ".toList)] ∧
    convert_output (ConvOptions.mk false false true false [] [])
        [HNode.tag "head".toList []
          [HNode.tag "meta".toList
            [("name".toList, some "x".toList),
             ("content".toList, some "y ".toList)] []]]
        "hi".toList = "---\nmeta-x: y\n---\nhi\n".toList ∧
    (convert_output (ConvOptions.mk false false true false [] [])
        [HNode.tag "head".toList []
          [HNode.tag "meta".toList
            [("name".toList, some "x".toList),
             ("content".toList, some "y ".toList)] []]]
        "hi".toList).take
      (format_metadata_frontmatter
        (head_metadata_of (ConvOptions.mk false false true false [] [])
          [HNode.tag "head".toList []
            [HNode.tag "meta".toList
              [("name".toList, some "x".toList),
               ("content".toList, some "y ".toList)] []]])).length ≠
    format_metadata_frontmatter
      (head_metadata_of (ConvOptions.mk false false true false [] [])
        [HNode.tag "head".toList []
          [HNode.tag "meta".toList
            [("name".toList, some "x".toList),
             ("content".toList, some "y ".toList)] []]]) := by
  decide

/-- C6 (amended): when `extract_metadata` is set, `convert_as_inline` is
not, and the head yields entries whose keys and values contain no newline
and whose `key: value` lines carry no trailing whitespace (the finalizer
rewrites such lines, as the counterexample shows), the converted output
begins with the YAML frontmatter block; the entry keys are `title`,
`canonical`, `base` or `meta-<name>`, in sorted key order; when
`convert_as_inline` is set no frontmatter is emitted regardless of
`extract_metadata`. -/
theorem c6_frontmatter_block :
    (∀ (opts : ConvOptions) (rootChildren : List HNode) (walkOut : Str),
      opts.extract_metadata = true → opts.convert_as_inline = false →
      head_metadata_of opts rootChildren ≠ [] →
      (∀ kv ∈ head_metadata_of opts rootChildren,
        '\n' ∉ kv.1 ∧ '\n' ∉ kv.2 ∧
          clean_line (kv.1 ++ ": ".toList ++ kv.2) =
            kv.1 ++ ": ".toList ++ kv.2) →
      (∃ t, convert_output opts rootChildren walkOut =
        format_metadata_frontmatter (head_metadata_of opts rootChildren) ++
          t) ∧
      (∀ kv ∈ head_metadata_of opts rootChildren,
        head_key_shape opts kv.1) ∧
      sorted_keys (head_metadata_of opts rootChildren)) ∧
    (∀ (opts : ConvOptions) (rootChildren : List HNode) (walkOut : Str),
      opts.convert_as_inline = true →
      convert_output opts rootChildren walkOut = finalize_output walkOut) := by
  constructor
  · intro opts rc w hext hinl hne hclean
    refine ⟨?_, ?_, ?_⟩
    · have hcond : (opts.extract_metadata && !opts.convert_as_inline &&
          !((head_metadata_of opts rc).isEmpty)) = true := by
        rw [hext, hinl]
        simp [List.isEmpty_iff, hne]
      rw [convert_output, if_pos hcond, format_eq_joinLines]
      exact finalize_append_clean_lines (front_lines (head_metadata_of opts rc))
        w (front_lines_no_newline (fun kv hkv => ⟨(hclean kv hkv).1,
          (hclean kv hkv).2.1⟩))
        (front_lines_clean (fun kv hkv => (hclean kv hkv).2.2))
        "---".toList
        ("---".toList ::
          (head_metadata_of opts rc).map
            (fun kv => kv.1 ++ ": ".toList ++ kv.2))
        (by rw [front_lines]) (by decide) (by decide)
    · exact fun kv h => extract_list_key_shape opts rc kv h
    · exact sorted_extract_list opts rc
  · intro opts rc w hinl
    have hcond : ¬ ((opts.extract_metadata && !opts.convert_as_inline &&
        !((head_metadata_of opts rc).isEmpty)) = true) := by
      rw [hinl]
      simp
    rw [convert_output, if_neg hcond, List.nil_append]

/-- C6 witness: a head carrying one title entry produces output starting
with the frontmatter block, with shaped and sorted keys. -/
theorem c6_frontmatter_block_witness :
    (∃ t, convert_output (ConvOptions.mk false false true false [] [])
        [HNode.tag "head".toList []
          [HNode.tag "title".toList [] [HNode.raw "T".toList]]]
        "hi".toList =
      format_metadata_frontmatter
        (head_metadata_of (ConvOptions.mk false false true false [] [])
          [HNode.tag "head".toList []
            [HNode.tag "title".toList [] [HNode.raw "T".toList]]]) ++ t) ∧
    (∀ kv ∈ head_metadata_of (ConvOptions.mk false false true false [] [])
        [HNode.tag "head".toList []
          [HNode.tag "title".toList [] [HNode.raw "T".toList]]],
      head_key_shape (ConvOptions.mk false false true false [] []) kv.1) ∧
    sorted_keys (head_metadata_of (ConvOptions.mk false false true false [] [])
      [HNode.tag "head".toList []
        [HNode.tag "title".toList [] [HNode.raw "T".toList]]]) :=
  c6_frontmatter_block.1 (ConvOptions.mk false false true false [] [])
    [HNode.tag "head".toList []
      [HNode.tag "title".toList [] [HNode.raw "T".toList]]]
    "hi".toList rfl rfl (by decide) (by decide)

/- ------------------------------------------------------------------ -/
/- C10 -/
/- ------------------------------------------------------------------ -/

theorem lru_get_hit {cache : List (Nat × Str)} {k : Nat} {v : Str}
    (h : (lru_get cache k).1 = some v) : (k, v) ∈ cache := by
  rw [lru_get] at h
  cases hf : cache.find? (fun e => e.1 == k) with
  | none =>
    rw [hf] at h
    simp at h
  | some e =>
    rw [hf] at h
    simp only [Option.some.injEq] at h
    have hmem := List.mem_of_find?_eq_some hf
    have hkey : e.1 = k := by simpa using List.find?_some hf
    have he : e = (k, v) := by
      obtain ⟨k1, v1⟩ := e
      simp only at h hkey
      rw [hkey, h]
    rw [← he]
    exact hmem

theorem lru_get_mem {cache : List (Nat × Str)} {k : Nat} {kv : Nat × Str}
    (h : kv ∈ (lru_get cache k).2) : kv ∈ cache := by
  rw [lru_get] at h
  cases hf : cache.find? (fun e => e.1 == k) with
  | none =>
    rw [hf] at h
    exact h
  | some e =>
    rw [hf] at h
    rcases List.mem_cons.mp h with h1 | h1
    · have hmem := List.mem_of_find?_eq_some hf
      have hkey : e.1 = k := by simpa using List.find?_some hf
      rw [h1, ← hkey]
      exact hmem
    · exact List.mem_of_mem_filter h1

theorem lru_get_miss {cache : List (Nat × Str)} {k : Nat}
    (h : (lru_get cache k).1 = none) : (lru_get cache k).2 = cache := by
  rw [lru_get] at h ⊢
  cases hf : cache.find? (fun e => e.1 == k) with
  | none => rfl
  | some e =>
    rw [hf] at h
    simp at h

theorem lru_put_mem {cap : Nat} {cache : List (Nat × Str)} {k : Nat}
    {v : Str} {kv : Nat × Str} (h : kv ∈ lru_put cap cache k v) :
    kv = (k, v) ∨ kv ∈ cache := by
  rw [lru_put] at h
  have h2 := List.mem_of_mem_take h
  rcases List.mem_cons.mp h2 with h3 | h3
  · exact Or.inl h3
  · exact Or.inr (List.mem_of_mem_filter h3)

theorem self_mem_subtree : ∀ (n : HNode), n ∈ subtree n := by
  intro n
  cases n <;> simp [subtree]

theorem mem_subtree_list_of_mem :
    ∀ (l : List HNode) (c : HNode), c ∈ l → ∀ x ∈ subtree c,
      x ∈ subtree_list l := by
  intro l
  induction l with
  | nil =>
    intro c hc
    simp at hc
  | cons d ds ih =>
    intro c hc x hx
    rw [subtree_list]
    rcases List.mem_cons.mp hc with h | h
    · exact List.mem_append_left _ (h ▸ hx)
    · exact List.mem_append_right _ (ih c h x hx)

mutual

theorem mem_subtree_trans :
    ∀ (root m x : HNode), m ∈ subtree root → x ∈ subtree m →
      x ∈ subtree root
  | HNode.raw t, m, x, hm, hx => by
    rw [subtree] at hm
    have he : m = HNode.raw t := by simpa using hm
    rw [he] at hx
    exact hx
  | HNode.comment, m, x, hm, hx => by
    rw [subtree] at hm
    have he : m = HNode.comment := by simpa using hm
    rw [he] at hx
    exact hx
  | HNode.tag nm a ch, m, x, hm, hx => by
    rw [subtree] at hm ⊢
    rcases List.mem_cons.mp hm with h | h
    · rw [h] at hx
      rw [subtree] at hx
      exact hx
    · exact List.mem_cons_of_mem _ (mem_subtree_trans_list ch m x h hx)

theorem mem_subtree_trans_list :
    ∀ (l : List HNode) (m x : HNode), m ∈ subtree_list l →
      x ∈ subtree m → x ∈ subtree_list l
  | [], m, x, hm, _ => by
    rw [subtree_list] at hm
    exact absurd hm (List.not_mem_nil m)
  | c :: rest, m, x, hm, hx => by
    rw [subtree_list] at hm ⊢
    rcases List.mem_append.mp hm with h | h
    · exact List.mem_append_left _ (mem_subtree_trans c m x h hx)
    · exact List.mem_append_right _ (mem_subtree_trans_list rest m x h hx)

end

mutual

theorem text_content_cached_sound (decode : Str → Str) (cap : Nat)
    (idOf : HNode → Nat) (root : HNode)
    (hid : id_consistent decode idOf root) :
    ∀ (n : HNode), n ∈ subtree root → ∀ (cache : List (Nat × Str)),
      cache_sound decode idOf root cache →
      (text_content_cached decode cap idOf n cache).1 =
        text_content decode n ∧
      cache_sound decode idOf root
        (text_content_cached decode cap idOf n cache).2
  | HNode.raw t, hmem, cache, hc => by
    rw [text_content_cached]
    rcases hg : lru_get cache (idOf (HNode.raw t)) with ⟨o, c2⟩
    cases o with
    | some v =>
      have hin : (idOf (HNode.raw t), v) ∈ cache :=
        lru_get_hit (by rw [hg])
      constructor
      · exact (hc _ hin (HNode.raw t) hmem rfl).symm
      · intro kv hkv m hm hk
        exact hc kv (lru_get_mem (by rw [hg]; exact hkv)) m hm hk
    | none =>
      have hc2 : c2 = cache := by
        have := @lru_get_miss cache (idOf (HNode.raw t)) (by rw [hg])
        rw [hg] at this
        exact this
      constructor
      · rfl
      · intro kv hkv m hm hk
        rcases lru_put_mem hkv with h1 | h1
        · rw [h1] at hk ⊢
          simp only at hk ⊢
          exact hid m hm (HNode.raw t) hmem hk
        · exact hc kv (hc2 ▸ h1) m hm hk
  | HNode.comment, hmem, cache, hc => by
    rw [text_content_cached]
    rcases hg : lru_get cache (idOf HNode.comment) with ⟨o, c2⟩
    cases o with
    | some v =>
      have hin : (idOf HNode.comment, v) ∈ cache :=
        lru_get_hit (by rw [hg])
      constructor
      · exact (hc _ hin HNode.comment hmem rfl).symm
      · intro kv hkv m hm hk
        exact hc kv (lru_get_mem (by rw [hg]; exact hkv)) m hm hk
    | none =>
      have hc2 : c2 = cache := by
        have := @lru_get_miss cache (idOf HNode.comment) (by rw [hg])
        rw [hg] at this
        exact this
      constructor
      · rfl
      · intro kv hkv m hm hk
        rcases lru_put_mem hkv with h1 | h1
        · rw [h1] at hk ⊢
          simp only at hk ⊢
          exact hid m hm HNode.comment hmem hk
        · exact hc kv (hc2 ▸ h1) m hm hk
  | HNode.tag nm a ch, hmem, cache, hc => by
    have hch : ∀ c ∈ ch, c ∈ subtree root := by
      intro c hcm
      apply mem_subtree_trans root (HNode.tag nm a ch) c hmem
      rw [subtree]
      exact List.mem_cons_of_mem _
        (mem_subtree_list_of_mem ch c hcm c (self_mem_subtree c))
    rw [text_content_cached]
    rcases hg : lru_get cache (idOf (HNode.tag nm a ch)) with ⟨o, c2⟩
    cases o with
    | some v =>
      have hin : (idOf (HNode.tag nm a ch), v) ∈ cache :=
        lru_get_hit (by rw [hg])
      constructor
      · exact (hc _ hin (HNode.tag nm a ch) hmem rfl).symm
      · intro kv hkv m hm hk
        exact hc kv (lru_get_mem (by rw [hg]; exact hkv)) m hm hk
    | none =>
      have hc2 : c2 = cache := by
        have := @lru_get_miss cache (idOf (HNode.tag nm a ch)) (by rw [hg])
        rw [hg] at this
        exact this
      have hrec := text_content_list_cached_sound decode cap idOf root hid
        ch hch c2 (by rw [hc2]; exact hc)
      constructor
      · simp only
        rw [hrec.1]
        rfl
      · intro kv hkv m hm hk
        simp only at hkv
        rcases lru_put_mem hkv with h1 | h1
        · rw [h1] at hk ⊢
          simp only at hk ⊢
          rw [hrec.1]
          exact hid m hm (HNode.tag nm a ch) hmem hk
        · exact hrec.2 kv h1 m hm hk

theorem text_content_list_cached_sound (decode : Str → Str) (cap : Nat)
    (idOf : HNode → Nat) (root : HNode)
    (hid : id_consistent decode idOf root) :
    ∀ (l : List HNode), (∀ c ∈ l, c ∈ subtree root) →
      ∀ (cache : List (Nat × Str)), cache_sound decode idOf root cache →
      (text_content_list_cached decode cap idOf l cache).1 =
        text_content_list decode l ∧
      cache_sound decode idOf root
        (text_content_list_cached decode cap idOf l cache).2
  | [], _, cache, hc => ⟨rfl, hc⟩
  | c :: rest, hl, cache, hc => by
    have h1 := text_content_cached_sound decode cap idOf root hid c
      (hl c (by simp)) cache hc
    have h2 := text_content_list_cached_sound decode cap idOf root hid rest
      (fun d hd => hl d (List.mem_cons_of_mem _ hd))
      (text_content_cached decode cap idOf c cache).2 h1.2
    rw [text_content_list_cached]
    constructor
    · simp only
      rw [h1.1, h2.1, text_content_list]
    · exact h2.2

end

instance (decode : Str → Str) (idOf : HNode → Nat) (root : HNode) :
    Decidable (id_consistent decode idOf root) := by
  unfold id_consistent
  infer_instance

instance (decode : Str → Str) (idOf : HNode → Nat) (root : HNode)
    (cache : List (Nat × Str)) :
    Decidable (cache_sound decode idOf root cache) := by
  unfold cache_sound
  infer_instance

/-- C10: the memoized text extraction of `DomContext` is deterministic:
for consistent node ids, starting from any two sound cache states (in
particular any states reachable from the per-call fresh caches, with any
LRU evictions in between) the extracted text is the same, and equals the
uncached text content; hence two conversions of the same document return
identical results. -/
theorem c10_text_cache_determinism (decode : Str → Str) (cap : Nat)
    (idOf : HNode → Nat) (root : HNode) (c1 c2 : List (Nat × Str))
    (hid : id_consistent decode idOf root)
    (h1 : cache_sound decode idOf root c1)
    (h2 : cache_sound decode idOf root c2) :
    (text_content_cached decode cap idOf root c1).1 =
      (text_content_cached decode cap idOf root c2).1 ∧
    (text_content_cached decode cap idOf root c1).1 =
      text_content decode root := by
  have ha := (text_content_cached_sound decode cap idOf root hid root
    (self_mem_subtree root) c1 h1).1
  have hb := (text_content_cached_sound decode cap idOf root hid root
    (self_mem_subtree root) c2 h2).1
  exact ⟨by rw [ha, hb], ha⟩

/-- C10 witness: a one-element document evaluated from the empty cache and
from a sound pre-populated cache yields the same text. -/
theorem c10_text_cache_determinism_witness :
    (text_content_cached (fun s => s) 4096
        (fun n => match n with
          | HNode.raw _ => 1
          | HNode.comment => 2
          | HNode.tag _ _ _ => 0)
        (HNode.tag "a".toList [] [HNode.raw "x".toList]) []).1 =
      (text_content_cached (fun s => s) 4096
        (fun n => match n with
          | HNode.raw _ => 1
          | HNode.comment => 2
          | HNode.tag _ _ _ => 0)
        (HNode.tag "a".toList [] [HNode.raw "x".toList])
        [(1, "x".toList)]).1 ∧
    (text_content_cached (fun s => s) 4096
        (fun n => match n with
          | HNode.raw _ => 1
          | HNode.comment => 2
          | HNode.tag _ _ _ => 0)
        (HNode.tag "a".toList [] [HNode.raw "x".toList]) []).1 =
      text_content (fun s => s)
        (HNode.tag "a".toList [] [HNode.raw "x".toList]) :=
  c10_text_cache_determinism (fun s => s) 4096
    (fun n => match n with
      | HNode.raw _ => 1
      | HNode.comment => 2
      | HNode.tag _ _ _ => 0)
    (HNode.tag "a".toList [] [HNode.raw "x".toList]) [] [(1, "x".toList)]
    (by decide) (by decide) (by decide)

end HtmlMd
